import Mathlib

/-!
Shallow embedding of the type-inference kernel of
`quangis/transformation/type.py` (the transformation-algebra repository).

Terms are a closed sum of operator applications and variable cells.
Variable cells are mutable in the source; here the mutable part (bounds and
the `unified` pointer) lives in an explicit `State` mapping cell ids to
cell records, and each source method becomes a function threading that
state.  Exceptions become an explicit error type; recursion that is not
structurally terminating in the source (following unification chains,
subtype-aware unification, resolution) takes an explicit fuel argument,
with exhaustion reported as a distinct `Err.fuel` outcome.
-/

/-- Variance of a type parameter (`Variance` in the source). -/
inductive Variance where
  | covariant
  | contravariant
deriving DecidableEq, Repr

/-- An n-ary type constructor (`Operator`): a name, a variance vector whose
length is the arity, and an optional direct supertype (itself an operator).
The source stores the supertype as a plain object reference. -/
inductive Op where
  | mk : String → List Variance → Option Op → Op

/-- The operator's name. -/
def Op.name : Op → String
  | .mk n _ _ => n

/-- The operator's variance vector (its length is the arity). -/
def Op.variance : Op → List Variance
  | .mk _ v _ => v

/-- The operator's declared direct supertype, if any. -/
def Op.parentOp : Op → Option Op
  | .mk _ _ s => s

/-- `Operator.__eq__`: structural on (name, variance); the supertype is
metadata and is ignored. -/
def opBEq (a b : Op) : Bool :=
  decide (a.name = b.name ∧ a.variance = b.variance)

/-- `Operator.__le__` together with `Operator.__lt__`:
`a <= b` iff `a == b` (structural) or `a`'s supertype chain reaches `b`. -/
def opLE : Op → Op → Bool
  | .mk n v s, b =>
    opBEq (.mk n v s) b ||
      match s with
      | some p => opLE p b
      | none => false

/-- `Operator.__lt__`: `bool(self.supertype and self.supertype <= other)`. -/
def opLT (a b : Op) : Bool :=
  match a.parentOp with
  | some p => opLE p b
  | none => false

/-- `Operator.basic`: arity 0, i.e. an empty variance vector. -/
def Op.basic (o : Op) : Bool := o.variance.isEmpty

/-- The exceptions the source can raise (module `error` plus the Python
built-ins `ValueError`, `IndexError` and `AssertionError`), together with
`fuel`, the marker for recursion that exceeds the supplied fuel (the
source would not terminate there). -/
inductive Err where
  | nonFunctionApplication
  | subtypeMismatch
  | typeMismatch
  | recursiveType
  | violatedConstraint
  | valueError
  | indexError
  | assertionError
  | fuel
deriving DecidableEq, Repr

/-- A plain type term (`PlainTerm`): an operator applied to parameters
(`OperatorTerm`) or a variable cell referenced by id (`VariableTerm`). -/
inductive PlainTerm where
  | varT : Nat → PlainTerm
  | opT : Op → List PlainTerm → PlainTerm

/-- `Operator.__init__`: builds an operator, raising `ValueError` when a
non-nullary operator declares a direct supertype. -/
def mkOperator (name : String) (variance : List Variance) (supertype : Option Op) :
    Except Err Op :=
  if supertype.isSome && !variance.isEmpty then .error .valueError
  else .ok (.mk name variance supertype)

/-- `OperatorTerm.__init__`: builds an operator term, raising `ValueError`
when the number of parameters differs from the operator's arity. -/
def mkOpT (o : Op) (ps : List PlainTerm) : Except Err PlainTerm :=
  if ps.length = o.variance.length then .ok (.opT o ps) else .error .valueError

mutual

/-- Term equality as the source computes it: variables compare by object
identity (here: by id), operator terms by `OperatorTerm.__eq__`, i.e. equal
operators (structurally, supertype ignored) and pairwise-equal zipped
parameters (`zip` stops at the shorter list).  No `unified` chain is
followed. -/
def termEq : PlainTerm → PlainTerm → Bool
  | .varT i, .varT j => i == j
  | .opT o ps, .opT o' qs => opBEq o o' && termEqL ps qs
  | _, _ => false

/-- Pairwise `termEq` over zipped parameter lists (`zip` stops at the
shorter list). -/
def termEqL : List PlainTerm → List PlainTerm → Bool
  | [], _ => true
  | _ :: _, [] => true
  | p :: ps, q :: qs => termEq p q && termEqL ps qs

end

mutual

/-- `PlainTerm.__contains__`: `value == self` or occurrence in a
parameter, recursively.  Equality is `termEq`, so no chain is followed. -/
def containsT (val : PlainTerm) : PlainTerm → Bool
  | .opT o ps => termEq val (.opT o ps) || containsTL val ps
  | .varT v => termEq val (.varT v)

/-- `containsT` over a parameter list. -/
def containsTL (val : PlainTerm) : List PlainTerm → Bool
  | [] => false
  | p :: ps => containsT val p || containsTL val ps

end

mutual

/-- Size of a term (used only for fuel bookkeeping in the proofs). -/
def sizeT : PlainTerm → Nat
  | .varT _ => 1
  | .opT _ ps => 1 + sizeTL ps

/-- Total size of a list of terms. -/
def sizeTL : List PlainTerm → Nat
  | [] => 0
  | p :: rest => sizeT p + sizeTL rest

end

/-- A variable cell's mutable record (`VariableTerm`): optional lower and
upper basic-operator bounds and the optional unification target. -/
structure Cell where
  lower : Option Op := none
  upper : Option Op := none
  unified : Option PlainTerm := none

/-- The fresh cell every `VariableTerm()` starts from. -/
def Cell.fresh : Cell := {}

/-- The mutable world: the content of every variable cell, plus the
monotonically increasing id counter (`VariableTerm.counter`). -/
structure State where
  cells : Nat → Cell
  next : Nat

/-- Allocate a fresh variable cell (`VariableTerm()`). -/
def freshVar (st : State) : Nat × State :=
  (st.next,
   { cells := fun v => if v = st.next then Cell.fresh else st.cells v
     next := st.next + 1 })

/-- Overwrite one cell. -/
def setCell (st : State) (v : Nat) (c : Cell) : State :=
  { st with cells := fun w => if w = v then c else st.cells w }

/-- Set a cell's `unified` field. -/
def setUnified (st : State) (v : Nat) (t : PlainTerm) : State :=
  setCell st v { st.cells v with unified := some t }

/-- Set a cell's `lower` field. -/
def setLower (st : State) (v : Nat) (o : Op) : State :=
  setCell st v { st.cells v with lower := some o }

/-- Set a cell's `upper` field. -/
def setUpper (st : State) (v : Nat) (o : Op) : State :=
  setCell st v { st.cells v with upper := some o }

/-- `PlainTerm.follow`: walk `unified` pointers until the nearest operator
term or root variable.  The source recurses without bound; fuel exhaustion
is reported as `Err.fuel`. -/
def follow (st : State) : Nat → PlainTerm → Except Err PlainTerm
  | 0, _ => .error .fuel
  | fuel + 1, .varT v =>
    match (st.cells v).unified with
    | some t => follow st fuel t
    | none => .ok (.varT v)
  | _ + 1, .opT o ps => .ok (.opT o ps)

mutual

/-- `PlainTerm.skeleton`: copy an operator term, substituting a fresh
variable for every basic-operator leaf; non-operator terms are returned
as they are (in particular variables are not copied).  Constructing the
copy re-checks the arity (`OperatorTerm.__init__`), and fresh cells are
allocated left to right, so the state is threaded through the parameter
walk. -/
def skeleton (st : State) : PlainTerm → Except Err (PlainTerm × State)
  | .opT o ps =>
    if o.basic then
      let (v, st') := freshVar st
      .ok (.varT v, st')
    else
      match skeletonL st ps with
      | .error e => .error e
      | .ok (ps', st') =>
        match mkOpT o ps' with
        | .error e => .error e
        | .ok t => .ok (t, st')
  | .varT v => .ok (.varT v, st)

/-- `skeleton` over a parameter list, threading the state left to right. -/
def skeletonL (st : State) : List PlainTerm → Except Err (List PlainTerm × State)
  | [] => .ok ([], st)
  | p :: rest =>
    match skeleton st p with
    | .error e => .error e
    | .ok (p', st₁) =>
      match skeletonL st₁ rest with
      | .error e => .error e
      | .ok (rest', st₂) => .ok (p' :: rest', st₂)

end

/-- `VariableTerm.above`: tighten the lower bound of cell `v` to `new`.
Absent bounds default to `new` itself in the comparisons. -/
def above (st : State) (v : Nat) (new : Op) : Except Err State :=
  let c := st.cells v
  let lower := c.lower.getD new
  let upper := c.upper.getD new
  if opLT upper new then .error .subtypeMismatch
  else if opLT new lower then .ok st
  else if opLE lower new then .ok (setLower st v new)
  else .error .subtypeMismatch

/-- `VariableTerm.below`: tighten the upper bound of cell `v` to `new`. -/
def below (st : State) (v : Nat) (new : Op) : Except Err State :=
  let c := st.cells v
  let lower := c.lower.getD new
  let upper := c.upper.getD new
  if opLT new lower then .error .subtypeMismatch
  else if opLT upper new then .ok st
  else if opLE new upper then .ok (setUpper st v new)
  else .error .subtypeMismatch

/-- The part of `VariableTerm.unify` that handles an operator-term target:
the precondition assert, setting `unified`, and (for a basic operator)
checking the target against the cell's bounds. -/
def unifyOp (st : State) (v : Nat) (o : Op) (ps : List PlainTerm) : Except Err State :=
  let c := st.cells v
  if !(match c.unified with | none => true | some u => termEq (.opT o ps) u) then
    .error .assertionError
  else
    let st₁ := setUnified st v (.opT o ps)
    if o.basic then
      if (match c.lower with | some l => opLT o l | none => false) then
        .error .subtypeMismatch
      else if (match c.upper with | some u => opLT u o | none => false) then
        .error .subtypeMismatch
      else .ok st₁
    else .ok st₁

/-- `VariableTerm.unify`: fuse cell `v` with target `t`.  A self-unify is
a no-op; a variable target receives the cell's bounds and, if its bounds
have met, is fused with that basic operator; a basic operator-term target
is checked against the bounds. -/
def unify (st : State) (v : Nat) (t : PlainTerm) : Except Err State :=
  match t with
  | .opT o ps => unifyOp st v o ps
  | .varT w =>
    let c := st.cells v
    if !(match c.unified with | none => true | some u => termEq (.varT w) u) then
      .error .assertionError
    else if w = v then .ok st
    else
      let st₁ := setUnified st v (.varT w)
      match (match c.lower with | some l => above st₁ w l | none => .ok st₁) with
      | .error e => .error e
      | .ok st₂ =>
        match (match c.upper with | some u => below st₂ w u | none => .ok st₂) with
        | .error e => .error e
        | .ok st₃ =>
          let cw := st₃.cells w
          match cw.lower, cw.upper with
          | some l, some u =>
            if opBEq l u then
              match mkOpT l [] with
              | .error e => .error e
              | .ok _ => unifyOp st₃ w l []
            else .ok st₃
          | _, _ => .ok st₃

/-- The parameter loop of `unify_subtype` on two same-operator compound
terms: recurse covariantly or contravariantly according to the variance
vector, threading the state.  The recursive call is passed in, so the
loop is structural on the list. -/
def usParamsWith (us : State → PlainTerm → PlainTerm → Except Err State) :
    State → List (Variance × (PlainTerm × PlainTerm)) → Except Err State
  | st, [] => .ok st
  | st, (v, x, y) :: rest =>
    match (if v = .covariant then us st x y else us st y x) with
    | .error e => .error e
    | .ok st₁ => usParamsWith us st₁ rest

/-- `PlainTerm.unify_subtype`: make `a` equal to or a subtype of `b`,
mutating variable cells.  Fuel bounds the recursion depth; the source
recurses without bound and can fail to terminate. -/
def unifySubtype : Nat → State → PlainTerm → PlainTerm → Except Err State
  | 0, _, _, _ => .error .fuel
  | fuel + 1, st, a0, b0 =>
    match follow st (fuel + 1) a0 with
    | .error e => .error e
    | .ok a =>
      match follow st (fuel + 1) b0 with
      | .error e => .error e
      | .ok b =>
        match a, b with
        | .opT oa pas, .opT ob pbs =>
          if oa.basic then
            if opLE oa ob then .ok st else .error .subtypeMismatch
          else if opBEq oa ob then
            usParamsWith (unifySubtype fuel) st (oa.variance.zip (pas.zip pbs))
          else .error .typeMismatch
        | .varT va, .varT vb => unify st va (.varT vb)
        | .varT va, .opT ob pbs =>
          if containsT (.varT va) (.opT ob pbs) then .error .recursiveType
          else if ob.basic then below st va ob
          else
            match skeleton st (.opT ob pbs) with
            | .error e => .error e
            | .ok (sk, st₁) =>
              match unify st₁ va sk with
              | .error e => .error e
              | .ok st₂ => unifySubtype fuel st₂ (.varT va) (.opT ob pbs)
        | .opT oa pas, .varT vb =>
          if containsT (.varT vb) (.opT oa pas) then .error .recursiveType
          else if oa.basic then above st vb oa
          else
            match skeleton st (.opT oa pas) with
            | .error e => .error e
            | .ok (sk, st₁) =>
              match unify st₁ vb sk with
              | .error e => .error e
              | .ok st₂ => unifySubtype fuel st₂ (.varT vb) (.opT oa pas)

/-- The parameter fold of `subtype` on two same-operator compound terms:
variance-directed recursion, `None` short-circuits, booleans are ANDed.
The recursive call is passed in, so the fold is structural on the list. -/
def stFoldWith (sub : PlainTerm → PlainTerm → Option Bool) :
    List (Variance × (PlainTerm × PlainTerm)) → Bool → Option Bool
  | [], acc => some acc
  | (v, s, t) :: rest, acc =>
    match (if v = .covariant then sub s t else sub t s) with
    | none => none
    | some r => stFoldWith sub rest (acc && r)

/-- `PlainTerm.subtype`: the non-mutating three-valued subtype test.
`some true` / `some false` are definite answers; `none` stands for "not
enough information", which here also absorbs fuel exhaustion. -/
def subtypeOf (st : State) : Nat → PlainTerm → PlainTerm → Option Bool
  | 0, _, _ => none
  | fuel + 1, s, t =>
    match follow st (fuel + 1) s, follow st (fuel + 1) t with
    | .ok (.opT oa pas), .ok (.opT ob pbs) =>
      if oa.basic then some (opLE oa ob)
      else if !opBEq oa ob then some false
      else stFoldWith (subtypeOf st fuel) (oa.variance.zip (pas.zip pbs)) true
    | _, _ => none

/-- Pairwise lifting of a binary term predicate over parameter lists
(both lists taken up to the shorter one). -/
def pairAllWith (eq2 : PlainTerm → PlainTerm → Bool) :
    List PlainTerm → List PlainTerm → Bool
  | [], _ => true
  | _ :: _, [] => true
  | p :: ps, q :: qs => eq2 p q && pairAllWith eq2 ps qs

/-- Structural equality up to following `unified` chains: the equality
the specification describes ("pairwise-equal params (after following)").
Not the source's `__eq__`; used to compare it with the source's. -/
def followEqB (st : State) : Nat → PlainTerm → PlainTerm → Bool
  | 0, _, _ => false
  | fuel + 1, s, t =>
    match follow st (fuel + 1) s, follow st (fuel + 1) t with
    | .ok (.varT i), .ok (.varT j) => i == j
    | .ok (.opT o ps), .ok (.opT o' qs) =>
      opBEq o o' && ps.length == qs.length && pairAllWith (followEqB st fuel) ps qs
    | _, _ => false

/-- Does a term predicate hold somewhere in a list (structural `any`)? -/
def anyWith (p : PlainTerm → Bool) : List PlainTerm → Bool
  | [] => false
  | t :: ts => p t || anyWith p ts

/-- The occurs check as the specification words it ("implement `contains`
by following the representative chain during the walk"): does the
variable at the head of `val`'s chain occur in `t`, following chains
while walking?  Not the source's `__contains__`; used to compare the two. -/
def specContainsFollow (st : State) : Nat → PlainTerm → PlainTerm → Bool
  | 0, _, _ => false
  | fuel + 1, val, t =>
    match follow st (fuel + 1) val, follow st (fuel + 1) t with
    | .ok (.varT v), .ok (.varT w) => v == w
    | .ok (.varT _), .ok (.opT _ ps) => anyWith (specContainsFollow st fuel val) ps
    | _, _ => false

/-- A deferred constraint (`Member` / `Param`): the list of patterns
(subject first, then the alternatives) and, for `Param`, the optional
1-based position keyword `at`. -/
inductive Constr where
  | member : List PlainTerm → Constr
  | param : List PlainTerm → Option Int → Constr

/-- The alternative loop of `Member.enforce`: a `true` subtype answer
satisfies the constraint (return `false`), an unknown keeps it (return
`true`), and falling through every alternative violates it. -/
def memLoop (st : State) (fuel : Nat) (subject : PlainTerm) :
    List PlainTerm → Except Err Bool
  | [] => .error .violatedConstraint
  | other :: rest =>
    match subtypeOf st fuel subject other with
    | some true => .ok false
    | none => .ok true
    | some false => memLoop st fuel subject rest

/-- `Member.enforce`: `self.patterns[0]` against `self.patterns[1:]`. -/
def enforceMember (st : State) (fuel : Nat) : List PlainTerm → Except Err Bool
  | [] => .error .indexError
  | subject :: alts => memLoop st fuel subject alts

/-- Python index arithmetic: negative indices count from the end. -/
def pyIdx (n : Nat) (i : Int) : Int :=
  if i < 0 then (n : Int) + i else i

/-- Python list indexing `l[i]`: negative indices count from the end;
out-of-range raises `IndexError`. -/
def pyGet (l : List PlainTerm) (i : Int) : Except Err PlainTerm :=
  if h : 0 ≤ pyIdx l.length i ∧ pyIdx l.length i < (l.length : Int) then
    .ok (l.get ⟨(pyIdx l.length i).toNat, by omega⟩)
  else .error .indexError

/-- The inner alternative loop of `Param.enforce` for one (followed)
parameter `fp`: `some b` means return `b`, `none` means fall through to
the next parameter (or to the violation). -/
def paramAlts (st : State) (fuel : Nat) (fp : PlainTerm) :
    List PlainTerm → Except Err (Option Bool)
  | [] => .ok none
  | other :: rest =>
    match follow st fuel other with
    | .error e => .error e
    | .ok fo =>
      match subtypeOf st fuel fp fo with
      | some true => .ok (some false)
      | none => .ok (some true)
      | some false => paramAlts st fuel fp rest

/-- The outer parameter loop of `Param.enforce` when no position is
given: try every parameter against every alternative. -/
def paramPs (st : State) (fuel : Nat) (alts : List PlainTerm) :
    List PlainTerm → Except Err (Option Bool)
  | [] => .ok none
  | p :: rest =>
    match follow st fuel p with
    | .error e => .error e
    | .ok fp =>
      match paramAlts st fuel fp alts with
      | .error e => .error e
      | .ok (some b) => .ok (some b)
      | .ok none => paramPs st fuel alts rest

/-- The position-free branch of `Param.enforce`: try every parameter
against every alternative; fall-through violates. -/
def paramAll (st : State) (fuel : Nat) (alts ps : List PlainTerm) : Except Err Bool :=
  match paramPs st fuel alts ps with
  | .error e => .error e
  | .ok (some b) => .ok b
  | .ok none => .error .violatedConstraint

/-- The body of the positional branch of `Param.enforce` once the
parameter has been fetched: follow it and try it against every
alternative; fall-through violates. -/
def paramAtCore (st : State) (fuel : Nat) (alts : List PlainTerm) (p : PlainTerm) :
    Except Err Bool :=
  match follow st fuel p with
  | .error e => .error e
  | .ok fp =>
    match paramAlts st fuel fp alts with
    | .error e => .error e
    | .ok (some b) => .ok b
    | .ok none => .error .violatedConstraint

/-- The positional branch of `Param.enforce`: check the 1-based `at`
position (Python indexing) when `position - 1 < len(params)`, trying
that parameter against every alternative; fall-through or an
out-of-range position violates. -/
def paramAt (st : State) (fuel : Nat) (alts ps : List PlainTerm) (pos : Int) :
    Except Err Bool :=
  if pos - 1 < (ps.length : Int) then
    match pyGet ps (pos - 1) with
    | .error e => .error e
    | .ok p => paramAtCore st fuel alts p
  else .error .violatedConstraint

/-- `Param.enforce`: follow the subject; a variable subject waits
(`true`); an operator-term subject tries its parameters (all of them, or
the one at the 1-based `at` position, Python indexing) against the
alternatives, and violates on fall-through or when `at` is out of range. -/
def enforceParam (st : State) (fuel : Nat) :
    List PlainTerm → Option Int → Except Err Bool
  | [], _ => .error .indexError
  | subject₀ :: alts, pos? =>
    match follow st fuel subject₀ with
    | .error e => .error e
    | .ok (.varT _) => .ok true
    | .ok (.opT _ ps) =>
      match pos? with
      | none => paramAll st fuel alts ps
      | some pos => paramAt st fuel alts ps pos

/-- `Constraint.enforce`, dispatching on the constraint kind. -/
def enforceC (st : State) (fuel : Nat) : Constr → Except Err Bool
  | .member pats => enforceMember st fuel pats
  | .param pats pos? => enforceParam st fuel pats pos?

/-- The constraint filter `(c for c in cs if c.enforce())` used by
`Term.resolve` and `Term.apply`. -/
def filterEnforce (st : State) (fuel : Nat) : List Constr → Except Err (List Constr)
  | [] => .ok []
  | c :: rest =>
    match enforceC st fuel c with
    | .error e => .error e
    | .ok b =>
      match filterEnforce st fuel rest with
      | .error e => .error e
      | .ok r => .ok (if b then c :: r else r)

/-- Fuse cell `v` with the basic operator `o` (`a.unify(a.lower())` /
`a.unify(a.upper())` in `resolve`): constructing the operator term checks
the arity, then the cell is unified with it. -/
def fuseBound (st : State) (v : Nat) (o : Op) : Except Err State :=
  match mkOpT o [] with
  | .error e => .error e
  | .ok _ => unifyOp st v o []

/-- The bound-fusing branch of `resolve` on a followed root variable:
`prefer_lower` picks the lower bound, otherwise the upper; `force` falls
back to the other bound; with no applicable bound the state is unchanged. -/
def resolveVarStep (force : Bool) (st : State) (pl : Bool) (v : Nat) : Except Err State :=
  let c := st.cells v
  if pl then
    match c.lower with
    | some l => fuseBound st v l
    | none =>
      if force then
        match c.upper with
        | some u => fuseBound st v u
        | none => .ok st
      else .ok st
  else
    match c.upper with
    | some u => fuseBound st v u
    | none =>
      if force then
        match c.lower with
        | some l => fuseBound st v l
        | none => .ok st
      else .ok st

/-- The parameter loop of `resolve` on an operator term: resolve each
zipped (variance, parameter) pair left to right, flipping `prefer_lower`
across contravariant positions, threading the state.  The recursive call
is passed in, so the loop is structural on the list. -/
def resolveParamsWith (rec1 : State → Bool → PlainTerm → Except Err (PlainTerm × State)) :
    State → Bool → List (Variance × PlainTerm) → Except Err (List PlainTerm × State)
  | st, _, [] => .ok ([], st)
  | st, pl, (v, p) :: rest =>
    match rec1 st (pl.xor (v = .contravariant)) p with
    | .error e => .error e
    | .ok (r, st₁) =>
      match resolveParamsWith rec1 st₁ pl rest with
      | .error e => .error e
      | .ok (rrest, st₂) => .ok (r :: rrest, st₂)

/-- `PlainTerm.resolve(force, resolve_subtypes, prefer_lower)`: substitute
followed terms throughout; optionally fuse variables with their preferred
bound, inverting the preference across contravariant positions. -/
def resolvePlain (force rs : Bool) : Nat → State → Bool → PlainTerm → Except Err (PlainTerm × State)
  | 0, _, _, _ => .error .fuel
  | fuel + 1, st, pl, t =>
    match follow st (fuel + 1) t with
    | .error e => .error e
    | .ok (.opT o ps) =>
      match resolveParamsWith (resolvePlain force rs fuel) st pl (o.variance.zip ps) with
      | .error e => .error e
      | .ok (ps', st') =>
        match mkOpT o ps' with
        | .error e => .error e
        | .ok r => .ok (r, st')
    | .ok (.varT v) =>
      if !rs then .ok (.varT v, st)
      else
        match resolveVarStep force st pl v with
        | .error e => .error e
        | .ok st₁ =>
          match follow st₁ (fuel + 1) (.varT v) with
          | .error e => .error e
          | .ok r => .ok (r, st₁)

/-- The special constructor for function types: arity 2, contravariant in
the input and covariant in the output, no supertype. -/
def Function : Op := .mk "Function" [.contravariant, .covariant] none

/-- A top-level `Term`: a plain term with its constraint list. -/
structure TTerm where
  plain : PlainTerm
  constraints : List Constr

/-- The tail of `Term.apply` once the function head has been followed
(and, for a variable head, fused with a fresh `Function`): a `Function`
operator term drives subtype unification of the argument against its
input, resolution of its output, and re-enforcement of the concatenated
constraints; anything else raises `NonFunctionApplication`. -/
def applyHead (fuel : Nat) (st : State) (fp xp : PlainTerm)
    (fcs xcs : List Constr) : Except Err (TTerm × State) :=
  match fp with
  | .opT o ps =>
    if opBEq o Function then
      match pyGet ps 0 with
      | .error e => .error e
      | .ok p0 =>
        match unifySubtype fuel st xp p0 with
        | .error e => .error e
        | .ok st₂ =>
          match pyGet ps 1 with
          | .error e => .error e
          | .ok p1 =>
            match resolvePlain false true fuel st₂ true p1 with
            | .error e => .error e
            | .ok (rp, st₃) =>
              match filterEnforce st₃ fuel (fcs ++ xcs) with
              | .error e => .error e
              | .ok cs => .ok (⟨rp, cs⟩, st₃)
    else .error .nonFunctionApplication
  | _ => .error .nonFunctionApplication

/-- `Term.apply`: follow both plain terms; fuse a variable function head
with `Function(fresh, fresh)` and re-follow; then `applyHead`. -/
def applyT (fuel : Nat) (st : State) (f x : TTerm) : Except Err (TTerm × State) :=
  match follow st fuel f.plain with
  | .error e => .error e
  | .ok fp =>
    match follow st fuel x.plain with
    | .error e => .error e
    | .ok xp =>
      match fp with
      | .varT v =>
        let (v1, st₁) := freshVar st
        let (v2, st₂) := freshVar st₁
        match unify st₂ v (.opT Function [.varT v1, .varT v2]) with
        | .error e => .error e
        | .ok st₃ =>
          match follow st₃ fuel (.varT v) with
          | .error e => .error e
          | .ok fp' => applyHead fuel st₃ fp' xp f.constraints x.constraints
      | _ => applyHead fuel st fp xp f.constraints x.constraints

mutual

/-- One-step deep follow of a term all of whose variables are either
roots or unified directly with an operator term: the shape `resolve`
returns when run a second time.  Used to state idempotence of `resolve`
up to following. -/
def settledFollow (st : State) : PlainTerm → PlainTerm
  | .varT v =>
    match (st.cells v).unified with
    | some u => u
    | none => .varT v
  | .opT o ps => .opT o (settledFollowL st ps)

/-- `settledFollow` over a parameter list. -/
def settledFollowL (st : State) : List PlainTerm → List PlainTerm
  | [] => []
  | p :: rest => settledFollow st p :: settledFollowL st rest

end

/-- Is an error one of the five error kinds of the specification's §7? -/
def fiveKinds : Err → Bool
  | .nonFunctionApplication => true
  | .subtypeMismatch => true
  | .typeMismatch => true
  | .recursiveType => true
  | .violatedConstraint => true
  | _ => false

/-- The test lattice: `Any`. -/
def AnyO : Op := .mk "Any" [] none

/-- The test lattice: `Ord ≤ Any`. -/
def OrdO : Op := .mk "Ord" [] (some AnyO)

/-- The test lattice: `Bool ≤ Ord`. -/
def BoolO : Op := .mk "Bool" [] (some OrdO)

/-- The test lattice: `Str ≤ Ord`. -/
def StrO : Op := .mk "Str" [] (some OrdO)

/-- The test lattice: `Int ≤ Ord`. -/
def IntO : Op := .mk "Int" [] (some OrdO)

/-- The test lattice: `UInt ≤ Int`. -/
def UIntO : Op := .mk "UInt" [] (some IntO)

/-- The covariant unary constructor `T` of the tests. -/
def TO : Op := .mk "T" [.covariant] none

/-- The state in which `n` root variable cells have been allocated and
nothing else has happened. -/
def initState (n : Nat) : State := { cells := fun _ => Cell.fresh, next := n }

/-- Build a function term `a ** b`. -/
def fnT (a b : PlainTerm) : PlainTerm := .opT Function [a, b]

/-- The basic operator term `Any`. -/
def tAny : PlainTerm := .opT AnyO []

/-- The basic operator term `Ord`. -/
def tOrd : PlainTerm := .opT OrdO []

/-- The basic operator term `Bool`. -/
def tBool : PlainTerm := .opT BoolO []

/-- The basic operator term `Str`. -/
def tStr : PlainTerm := .opT StrO []

/-- The basic operator term `Int`. -/
def tInt : PlainTerm := .opT IntO []

/-- The basic operator term `UInt`. -/
def tUInt : PlainTerm := .opT UIntO []

/-- Project the resulting plain term out of a `Term.apply` outcome. -/
def applyPlain? (r : Except Err (TTerm × State)) : Option PlainTerm :=
  match r with
  | .ok (t, _) => some t.plain
  | .error _ => none

/-- Project the error out of a `Term.apply` outcome. -/
def applyErr? (r : Except Err (TTerm × State)) : Option Err :=
  match r with
  | .ok _ => none
  | .error e => some e

/-- Did a state-returning operation succeed? -/
def isOkS (r : Except Err State) : Bool :=
  match r with
  | .ok _ => true
  | .error _ => false

/-- Run `resolve` twice on a plain term with the same flags and compare
the two results with the source's structural equality; `none` if either
pass fails. -/
def resolveTwiceEq (force rs : Bool) (fuel : Nat) (st : State) (pl : Bool)
    (t : PlainTerm) : Option Bool :=
  match resolvePlain force rs fuel st pl t with
  | .error _ => none
  | .ok (r, st') =>
    match resolvePlain force rs fuel st' pl r with
    | .error _ => none
    | .ok (r₂, _) => some (termEq r r₂)

/-- The variable `α` of the `leq` scenario. -/
def alphaC5 : PlainTerm := .varT 0

/-- The instantiated `leq = ∀α. α ** α ** Bool | Member(α, Ord, Bool)`:
one fresh cell for `α`, the plain term, and the `Member` constraint. -/
def leqC5 : TTerm := ⟨fnT alphaC5 (fnT alphaC5 tBool), [.member [alphaC5, tOrd, tBool]]⟩

/-- A state with one cell whose lower bound is `Int`. -/
def stC2 : State := ⟨fun v => if v = 0 then { lower := some IntO } else Cell.fresh, 1⟩

/-- A state with cell 1 unified to cell 0 (a stale indirection target). -/
def stC3 : State := ⟨fun v => if v = 1 then { unified := some (.varT 0) } else Cell.fresh, 2⟩

/-- The compound term `T(v1)` in which cell 0 occurs only through cell 1's
`unified` chain. -/
def bC3 : PlainTerm := .opT TO [.varT 1]

/-- A state with cell 0 unified to the operator term `Int`. -/
def stC6 : State := ⟨fun v => if v = 0 then { unified := some tInt } else Cell.fresh, 1⟩

/-- A state with one cell whose lower bound is `Int` (fresh copy for the
resolve-idempotence scenario). -/
def stC7 : State := ⟨fun v => if v = 0 then { lower := some IntO } else Cell.fresh, 1⟩

/-- State refinement: every `unified` pointer already set keeps its value
(the source only ever sets `unified` on roots, or re-sets it to an equal
term, and never clears it).  Bounds may change arbitrarily. -/
def Extends (st st' : State) : Prop :=
  ∀ v u, (st.cells v).unified = some u → (st'.cells v).unified = some u

/-- How one `resolve` pass may change the state: bounds are untouched, and
`unified` is either untouched or set, on a previous root, to a basic
operator term taken from that cell's own bounds. -/
def ResolveStep (st st' : State) : Prop :=
  ∀ v,
    (st'.cells v).lower = (st.cells v).lower ∧
    (st'.cells v).upper = (st.cells v).upper ∧
    ((st'.cells v).unified = (st.cells v).unified ∨
      ((st.cells v).unified = none ∧
        ∃ o, o.basic = true ∧ (st'.cells v).unified = some (.opT o []) ∧
          ((st.cells v).lower = some o ∨ (st.cells v).upper = some o)))

/-- A cell whose bounds, when both present, are ordered. -/
def goodBounds (c : Cell) : Prop :=
  ∀ l u, c.lower = some l → c.upper = some u → opLE l u = true

/-- The conditions under which a term returned by one `resolve` pass is
left exactly in place (up to one `follow` step) by a second pass with the
same flags: operator nodes have resolved parameters at the flipped
preference, and variable nodes are either roots none of whose bounds the
flags would fuse, or are fused directly with a basic operator term. -/
inductive Settled (st : State) (force rs : Bool) : Bool → PlainTerm → Prop
  | var_root (pl : Bool) (v : Nat)
      (hroot : (st.cells v).unified = none)
      (hbound : rs = true →
        (pl = true → (st.cells v).lower = none) ∧
        (pl = false → (st.cells v).upper = none) ∧
        (force = true → (st.cells v).lower = none ∧ (st.cells v).upper = none)) :
      Settled st force rs pl (.varT v)
  | var_basic (pl : Bool) (v : Nat) (o : Op)
      (hu : (st.cells v).unified = some (.opT o []))
      (hb : o.basic = true) :
      Settled st force rs pl (.varT v)
  | op (pl : Bool) (o : Op) (ps : List PlainTerm)
      (hlen : ps.length = o.variance.length)
      (hps : ∀ vp : Variance × PlainTerm, vp ∈ o.variance.zip ps →
        Settled st force rs (pl.xor (vp.1 = .contravariant)) vp.2) :
      Settled st force rs pl (.opT o ps)

/-- A state with one cell carrying the ordered bounds `UInt ≤ Any`. -/
def stC4w : State :=
  ⟨fun v => if v = 0 then { lower := some UIntO, upper := some AnyO } else Cell.fresh, 1⟩

/-- `Operator.__eq__` is reflexive. -/
theorem opBEq_refl (a : Op) : opBEq a a = true := by
  simp [opBEq]

/-- `Operator.__eq__` is symmetric. -/
theorem opBEq_symm {a b : Op} (h : opBEq a b = true) : opBEq b a = true := by
  simp only [opBEq, decide_eq_true_eq] at h ⊢
  exact ⟨h.1.symm, h.2.symm⟩

/-- `a == b` implies `a <= b` (the first disjunct of `__le__`). -/
theorem opLE_of_opBEq {a b : Op} (h : opBEq a b = true) : opLE a b = true := by
  cases a with
  | mk n v s =>
    unfold opLE
    rw [h]
    rfl

/-- `__le__` unfolded through `__lt__`: `a <= b` iff `a == b` or `a < b`. -/
theorem opLE_eq (a b : Op) : opLE a b = (opBEq a b || opLT a b) := by
  cases a with
  | mk n v s =>
    cases s with
    | none => simp [opLE, opLT, Op.parentOp]
    | some p => simp [opLE, opLT, Op.parentOp]

/-- `opLE` is reflexive. -/
theorem opLE_refl (a : Op) : opLE a a = true := by
  cases a with
  | mk n v s => unfold opLE; simp [opBEq_refl]

/-- C9 counterexample: applying the basic operator `Int` to one argument
— the public constructor call `Int(Int)` — raises `ValueError`, which is
none of the five error kinds of §7, refuting the claim that every public
operation returns or raises one of exactly those five kinds. -/
theorem c9_counterexample :
    mkOpT IntO [tInt] = .error .valueError ∧ fiveKinds .valueError = false :=
  ⟨rfl, rfl⟩

/-- C9 (amended): operator declaration and operator-term construction
validate their input with `ValueError`, an error kind outside the five of
§7: construction `op(t₁,…,tₙ)` succeeds exactly when `n` is the
operator's arity and raises `ValueError` otherwise, and declaration
succeeds exactly when the operator is nullary or declares no supertype
and raises `ValueError` otherwise. -/
theorem c9_amended (o : Op) (ps : List PlainTerm) (name : String)
    (variance : List Variance) (sup : Option Op) :
    (ps.length = o.variance.length → mkOpT o ps = .ok (.opT o ps)) ∧
    (ps.length ≠ o.variance.length → mkOpT o ps = .error .valueError) ∧
    (sup.isSome = true → variance ≠ [] → mkOperator name variance sup = .error .valueError) ∧
    ((sup = none ∨ variance = []) → mkOperator name variance sup = .ok (.mk name variance sup)) ∧
    fiveKinds .valueError = false := by
  refine ⟨fun h => ?_, fun h => ?_, fun h h' => ?_, fun h => ?_, rfl⟩
  · simp [mkOpT, h]
  · simp [mkOpT, h]
  · simp [mkOperator, h, h']
  · rcases h with h | h <;> simp [mkOperator, h]

/-- C9 witness: the constructor behaviour at concrete inputs. -/
theorem c9_witness :
    mkOpT TO [tInt] = .ok (.opT TO [tInt]) ∧
    mkOperator "F" [.covariant] (some AnyO) = .error .valueError :=
  ⟨(c9_amended TO [tInt] "F" [.covariant] (some AnyO)).1 rfl,
   (c9_amended TO [tInt] "F" [.covariant] (some AnyO)).2.2.1 rfl (by simp)⟩

/-- C2 counterexample: a root cell with lower bound `Int` is unified with
the basic operator term `Str`, whose lineage is unrelated to `Int`:
`lower ≤ op` fails, yet `unify` succeeds instead of raising
`SubtypeMismatch`, refuting the claim. -/
theorem c2_counterexample :
    (stC2.cells 0).lower = some IntO ∧
    opLE IntO StrO = false ∧
    isOkS (unify stC2 0 (.opT StrO [])) = true :=
  ⟨rfl, rfl, rfl⟩

/-- C2 (amended): `unify` of a root variable cell with a basic operator
term checks only the strict comparisons `op < lower` and `upper < op`
(absent bounds never fail): it raises `SubtypeMismatch` exactly when one
of those holds, and otherwise succeeds, recording the fusion — in
particular an operator from a lineage unrelated to an existing bound is
accepted. -/
theorem c2_amended (st : State) (v : Nat) (o : Op)
    (hroot : (st.cells v).unified = none) (hbasic : o.basic = true) :
    unify st v (.opT o []) =
      if (match (st.cells v).lower with | some l => opLT o l | none => false) then
        .error .subtypeMismatch
      else if (match (st.cells v).upper with | some u => opLT u o | none => false) then
        .error .subtypeMismatch
      else .ok (setUnified st v (.opT o [])) := by
  simp only [unify, unifyOp, hroot, hbasic, Bool.not_true, Bool.false_eq_true, if_false,
    if_true]

/-- C2 witness: the amended statement at the concrete counterexample
state — the unrelated `Str` is accepted. -/
theorem c2_witness :
    unify stC2 0 (.opT StrO []) = .ok (setUnified stC2 0 (.opT StrO [])) := by
  have h := c2_amended stC2 0 StrO rfl rfl
  simpa using h

/-- C3 counterexample: cell 0 occurs in `T(v1)` only through cell 1's
`unified` chain (the follow-aware occurs check sees it), yet
`unify_subtype(v0, T(v1))` does not raise `RecursiveType`: it exhausts
any amount of fuel (the source recurses forever), refuting the claim. -/
theorem c3_counterexample :
    specContainsFollow stC3 6 (.varT 0) bC3 = true ∧
    unifySubtype 12 stC3 (.varT 0) bC3 = .error .fuel :=
  ⟨rfl, rfl⟩

/-- C3 (amended): `unify_subtype(a, b)` with a variable head for `a` and
an operator-term head for `b` raises `RecursiveType` exactly for
occurrences that the source's `__contains__` sees: syntactic occurrences
of the cell in `b`, compared by identity without following `unified`
chains.  Occurrences visible only through a stale indirection are not
detected, and such calls can fail to terminate. -/
theorem c3_amended (st : State) (fuel : Nat) (a0 b0 : PlainTerm) (va : Nat)
    (ob : Op) (pbs : List PlainTerm)
    (ha : follow st (fuel + 1) a0 = .ok (.varT va))
    (hb : follow st (fuel + 1) b0 = .ok (.opT ob pbs))
    (hocc : containsT (.varT va) (.opT ob pbs) = true) :
    unifySubtype (fuel + 1) st a0 b0 = .error .recursiveType := by
  unfold unifySubtype
  rw [ha, hb]
  simp [hocc]

/-- C3 witness: a direct syntactic occurrence is detected. -/
theorem c3_witness :
    unifySubtype 6 (initState 1) (.varT 0) (.opT TO [.varT 0]) = .error .recursiveType :=
  c3_amended (initState 1) 5 (.varT 0) (.opT TO [.varT 0]) 0 TO [.varT 0] rfl rfl rfl

/-- C5: evaluation of the `leq = ∀α. α ** α ** Bool | Member(α, Ord, Bool)`
scenario.  Applying `Int` and then `UInt` yields `Bool` as claimed; but
applying `Any` does not raise `ViolatedConstraint`: the application
returns normally with plain `α ** Bool` and the `Member` constraint still
pending, because `subtype` on the still-unresolved variable `α` (which
only received the lower bound `Any`) answers `None` and `Member.enforce`
keeps waiting.  The repository's own test asserts `ViolatedConstraint`
here, so the code contradicts its test suite. -/
theorem c5_leq_scenario :
    (match applyT 30 (initState 1) leqC5 ⟨tInt, []⟩ with
     | .ok (t, st') => applyPlain? (applyT 30 st' t ⟨tUInt, []⟩)
     | .error _ => none) = some tBool ∧
    applyErr? (applyT 30 (initState 1) leqC5 ⟨tAny, []⟩) = none ∧
    applyPlain? (applyT 30 (initState 1) leqC5 ⟨tAny, []⟩) =
      some (fnT alphaC5 tBool) :=
  ⟨rfl, rfl, rfl⟩

/-- C6 counterexample: with cell 0 unified to the term `Int`, the claim
says `T(v0)` equals `T(Int)` (parameters pairwise equal after
following), but the source's `__eq__` compares the variable by identity
without following and answers `False`; equality up to following does
hold. -/
theorem c6_counterexample :
    (stC6.cells 0).unified = some tInt ∧
    termEq (.opT TO [.varT 0]) (.opT TO [tInt]) = false ∧
    followEqB stC6 6 (.opT TO [.varT 0]) (.opT TO [tInt]) = true :=
  ⟨rfl, rfl, rfl⟩

/-- Pairwise equality over equal-length lists is pointwise. -/
theorem termEqL_iff : ∀ (ps qs : List PlainTerm), ps.length = qs.length →
    (termEqL ps qs = true ↔
      ∀ i (h : i < ps.length) (h' : i < qs.length),
        termEq (ps.get ⟨i, h⟩) (qs.get ⟨i, h'⟩) = true)
  | [], [], _ => by simp [termEqL]
  | [], _ :: _, h => by simp at h
  | _ :: _, [], h => by simp at h
  | p :: ps, q :: qs, h => by
    have ih := termEqL_iff ps qs (by simpa using h)
    simp only [termEqL, Bool.and_eq_true, ih]
    constructor
    · rintro ⟨h1, h2⟩ i hi hi'
      cases i with
      | zero => exact h1
      | succ j => exact h2 j (by simpa using hi) (by simpa using hi')
    · intro hall
      refine ⟨hall 0 (by simp) (by simp), fun j hj hj' => ?_⟩
      exact hall (j + 1) (by simpa using hj) (by simpa using hj')

/-- C6 (amended): two operator terms are equal in the source's sense iff
they carry structurally equal operators and their parameters are
pairwise equal in the same sense, where variables compare by identity
and `unified` chains are not followed — so `Op(v)` with `v` unified to
the term `Int` is not equal to `Op(Int)`, they are only equal up to
following. -/
theorem c6_amended (o o' : Op) (ps qs : List PlainTerm)
    (hlen : ps.length = qs.length) :
    termEq (.opT o ps) (.opT o' qs) = true ↔
      (opBEq o o' = true ∧
        ∀ i (h : i < ps.length) (h' : i < qs.length),
          termEq (ps.get ⟨i, h⟩) (qs.get ⟨i, h'⟩) = true) := by
  rw [show termEq (.opT o ps) (.opT o' qs) = (opBEq o o' && termEqL ps qs) from rfl]
  rw [Bool.and_eq_true, termEqL_iff ps qs hlen]

/-- C6 witness: the characterisation at a concrete pair of terms. -/
theorem c6_witness : termEq (.opT TO [tInt]) (.opT TO [tInt]) = true :=
  (c6_amended TO TO [tInt] [tInt] rfl).mpr
    ⟨rfl, by
      intro i h h'
      match i, h with
      | 0, _ => exact rfl⟩

/-- Python index `-1` normalises to the last position. -/
theorem pyIdx_neg_one (n : Nat) : pyIdx n ((0 : Int) - 1) = (n : Int) - 1 := by
  unfold pyIdx
  rw [if_pos (by omega)]
  omega

/-- A nonnegative in-range index normalises to itself. -/
theorem pyIdx_last (n : Nat) (h : 1 ≤ n) : pyIdx n ((n : Int) - 1) = (n : Int) - 1 := by
  unfold pyIdx
  rw [if_neg (by omega)]

/-- Indexing at `-1` agrees with indexing at `length - 1`. -/
theorem pyGet_neg_one (ps : List PlainTerm) (hne : ps ≠ []) :
    pyGet ps ((0 : Int) - 1) = pyGet ps ((ps.length : Int) - 1) := by
  have hn : 1 ≤ ps.length := List.length_pos.mpr hne
  unfold pyGet
  simp only [pyIdx_neg_one, pyIdx_last ps.length hn]

/-- C10: a `Param` constraint built with `at=0`: since `0 - 1 = -1` always
passes the range test `position - 1 < len(params)` and Python indexing
interprets `-1` as the last element, `enforce` on an operator-term
subject with at least one parameter behaves exactly like `at = n`
(1-based last position); on a nullary subject it raises `IndexError`
instead of `ViolatedConstraint`. -/
theorem c10_param_at_zero (st : State) (fuel : Nat) (subj : PlainTerm)
    (alts : List PlainTerm) (o : Op) (ps : List PlainTerm)
    (hf : follow st fuel subj = .ok (.opT o ps)) :
    (ps ≠ [] →
      enforceParam st fuel (subj :: alts) (some 0) =
        enforceParam st fuel (subj :: alts) (some (ps.length : Int))) ∧
    (ps = [] →
      enforceParam st fuel (subj :: alts) (some 0) = .error .indexError) := by
  constructor
  · intro hne
    simp only [enforceParam, hf, paramAt]
    rw [if_pos (show (0 : Int) - 1 < (ps.length : Int) by omega)]
    rw [if_pos (show (ps.length : Int) - 1 < (ps.length : Int) by omega)]
    rw [pyGet_neg_one ps hne]
  · intro h
    subst h
    simp only [enforceParam, hf, paramAt]
    rw [if_pos (show (0 : Int) - 1 < (([] : List PlainTerm).length : Int) by simp)]
    have : pyGet ([] : List PlainTerm) ((0 : Int) - 1) = .error .indexError := by
      unfold pyGet
      rw [dif_neg (by simp [pyIdx])]
    rw [this]

/-- C10 witness: the behaviour at `T(Int)` (one parameter: `at=0` equals
`at=1`) and at a nullary subject (`IndexError`). -/
theorem c10_witness :
    enforceParam (initState 1) 10 [.opT TO [tInt], tInt] (some 0) =
      enforceParam (initState 1) 10 [.opT TO [tInt], tInt] (some 1) ∧
    enforceParam (initState 1) 10 [tInt, tInt] (some 0) = .error .indexError :=
  ⟨(c10_param_at_zero (initState 1) 10 (.opT TO [tInt]) [tInt] TO [tInt] rfl).1
      (by simp),
   (c10_param_at_zero (initState 1) 10 tInt [tInt] IntO [] rfl).2 rfl⟩

/-- C1: `Term.apply(f_term, x_term)` after following both plain terms: a
variable function head is fused with `Function(fresh, fresh)` and
re-followed before the same dispatch; a `Function`-operator head performs
`unify_subtype(x, f.params[0])`, resolves `f.params[1]` (a single default
resolution pass; no bound field is erased), and re-enforces the
concatenation of both constraint lists; any other head raises
`NonFunctionApplication`. -/
theorem c1_apply (fuel : Nat) (st : State) (f x : TTerm) (fp xp : PlainTerm)
    (hf : follow st fuel f.plain = .ok fp)
    (hx : follow st fuel x.plain = .ok xp) :
    (∀ v, fp = .varT v →
      applyT fuel st f x =
        (let (v1, st₁) := freshVar st
         let (v2, st₂) := freshVar st₁
         match unify st₂ v (.opT Function [.varT v1, .varT v2]) with
         | .error e => .error e
         | .ok st₃ =>
           match follow st₃ fuel (.varT v) with
           | .error e => .error e
           | .ok fp' => applyHead fuel st₃ fp' xp f.constraints x.constraints)) ∧
    (∀ o ps, fp = .opT o ps → opBEq o Function = true →
      applyT fuel st f x =
        (match pyGet ps 0 with
         | .error e => .error e
         | .ok p0 =>
           match unifySubtype fuel st xp p0 with
           | .error e => .error e
           | .ok st₂ =>
             match pyGet ps 1 with
             | .error e => .error e
             | .ok p1 =>
               match resolvePlain false true fuel st₂ true p1 with
               | .error e => .error e
               | .ok (rp, st₃) =>
                 match filterEnforce st₃ fuel (f.constraints ++ x.constraints) with
                 | .error e => .error e
                 | .ok cs => .ok (⟨rp, cs⟩, st₃))) ∧
    (∀ o ps, fp = .opT o ps → opBEq o Function = false →
      applyT fuel st f x = .error .nonFunctionApplication) := by
  refine ⟨fun v hv => ?_, fun o ps hop hfn => ?_, fun o ps hop hfn => ?_⟩
  · subst hv
    simp only [applyT, hf, hx]
  · subst hop
    simp only [applyT, hf, hx, applyHead, hfn, if_true]
  · subst hop
    simp only [applyT, hf, hx, applyHead, hfn, Bool.false_eq_true, if_false]

/-- C1 witness: applying a non-function head raises
`NonFunctionApplication` (the first test of the suite). -/
theorem c1_witness :
    applyT 10 (initState 0) ⟨tInt, []⟩ ⟨tInt, []⟩ = .error .nonFunctionApplication :=
  (c1_apply 10 (initState 0) ⟨tInt, []⟩ ⟨tInt, []⟩ tInt tInt rfl rfl).2.2 IntO [] rfl rfl

/-- The cell after `setLower`. -/
theorem setLower_cells_self (st : State) (v : Nat) (o : Op) :
    (setLower st v o).cells v = { st.cells v with lower := some o } := by
  simp [setLower, setCell]

/-- The cell after `setUpper`. -/
theorem setUpper_cells_self (st : State) (v : Nat) (o : Op) :
    (setUpper st v o).cells v = { st.cells v with upper := some o } := by
  simp [setUpper, setCell]

/-- C4 counterexample: on a fresh cell `x`, `unify_subtype(x, Str)` (which
performs `below(Str)`) and then `unify_subtype(Int, x)` (which performs
`above(Int)`) both return without raising, and the cell ends with
`lower = Int`, `upper = Str`, although `Int ≤ Str` is false — the claimed
invariant fails after a two-call sequence. -/
theorem c4_counterexample :
    (match unifySubtype 10 (initState 1) (.varT 0) tStr with
     | .ok s1 =>
       match unifySubtype 10 s1 tInt (.varT 0) with
       | .ok s2 => some ((s2.cells 0).lower, (s2.cells 0).upper)
       | .error _ => none
     | .error _ => none) = some (some IntO, some StrO) ∧
    opLE IntO StrO = false :=
  ⟨rfl, rfl⟩

/-- C4 (amended): a successful `above` or `below` call preserves
`lower ≤ upper` provided the imposed operator is lineage-comparable with
every bound already present on the cell; when the operator is unrelated
to a present bound the call can still succeed (because the strict
comparisons both fail) and leave `lower ≰ upper`. -/
theorem c4_bounds_preserved (st : State) (v : Nat) (new : Op) (st' : State)
    (hgb : goodBounds (st.cells v))
    (cmpL : ∀ l, (st.cells v).lower = some l →
      opLE l new = true ∨ opLE new l = true)
    (cmpU : ∀ u, (st.cells v).upper = some u →
      opLE new u = true ∨ opLE u new = true) :
    (above st v new = .ok st' → goodBounds (st'.cells v)) ∧
    (below st v new = .ok st' → goodBounds (st'.cells v)) := by
  constructor
  · intro h
    simp only [above] at h
    split_ifs at h with h1 h2 h3
    · cases h
      exact hgb
    · cases h
      rw [setLower_cells_self]
      intro l u hl hu
      cases hl
      have hu' : (st.cells v).upper = some u := hu
      have hUnew : opLT u new = false := by
        have := h1
        rw [hu'] at this
        simpa using this
      rcases cmpU u hu' with hx | hx
      · exact hx
      · rw [opLE_eq, hUnew, Bool.or_false] at hx
        exact opLE_of_opBEq (opBEq_symm hx)
  · intro h
    simp only [below] at h
    split_ifs at h with h1 h2 h3
    · cases h
      exact hgb
    · cases h
      rw [setUpper_cells_self]
      intro l u hl hu
      cases hu
      have hl' : (st.cells v).lower = some l := hl
      have hLnew : opLT new l = false := by
        have := h1
        rw [hl'] at this
        simpa using this
      rcases cmpL l hl' with hx | hx
      · exact hx
      · rw [opLE_eq, hLnew, Bool.or_false] at hx
        exact opLE_of_opBEq (opBEq_symm hx)

/-- C4 witness: tightening `UInt ≤ Any` with `above(Int)` keeps the
bounds ordered. -/
theorem c4_witness : goodBounds ((setLower stC4w 0 IntO).cells 0) :=
  (c4_bounds_preserved stC4w 0 IntO (setLower stC4w 0 IntO)
    (by
      intro l u hl hu
      have hl' : some UIntO = some l := hl
      have hu' : some AnyO = some u := hu
      cases hl'
      cases hu'
      rfl)
    (by
      intro l hl
      have hl' : some UIntO = some l := hl
      cases hl'
      exact Or.inl rfl)
    (by
      intro u hu
      have hu' : some AnyO = some u := hu
      cases hu'
      exact Or.inl rfl)).1 rfl

/-- `follow` can only fail with fuel exhaustion. -/
theorem follow_err {st : State} : ∀ {n : Nat} {t : PlainTerm} {e : Err},
    follow st n t = .error e → e = .fuel
  | 0, _, _, h => by
    simp only [follow] at h
    exact (Except.error.inj h).symm
  | n + 1, .varT v, e, h => by
    simp only [follow] at h
    cases hu : (st.cells v).unified with
    | some u =>
      rw [hu] at h
      exact follow_err h
    | none => rw [hu] at h; cases h
  | n + 1, .opT o ps, e, h => by
    simp only [follow] at h
    cases h

/-- A successful `follow` is fuel-monotone. -/
theorem follow_mono {st : State} : ∀ {n : Nat} {t u : PlainTerm},
    follow st n t = .ok u → ∀ {m : Nat}, n ≤ m → follow st m t = .ok u
  | 0, _, _, h, _, _ => by simp only [follow] at h; cases h
  | n + 1, .varT v, u, h, m, hm => by
    obtain ⟨m', rfl⟩ : ∃ m', m = m' + 1 := ⟨m - 1, by omega⟩
    simp only [follow] at h ⊢
    revert h
    cases (st.cells v).unified with
    | some w => exact fun h => follow_mono h (show n ≤ m' by omega)
    | none => exact fun h => h
  | n + 1, .opT o ps, u, h, m, hm => by
    obtain ⟨m', rfl⟩ : ∃ m', m = m' + 1 := ⟨m - 1, by omega⟩
    simpa only [follow] using h

/-- Two successful `follow`s of one term in one state agree. -/
theorem follow_det {st : State} {n m : Nat} {t u u' : PlainTerm}
    (h : follow st n t = .ok u) (h' : follow st m t = .ok u') : u = u' := by
  have h1 := follow_mono h (Nat.le_max_left n m)
  have h2 := follow_mono h' (Nat.le_max_right n m)
  rw [h1] at h2
  exact Except.ok.inj h2

/-- What a successful `follow` can return: a root variable or an
operator term. -/
theorem follow_shape {st : State} : ∀ {n : Nat} {t u : PlainTerm},
    follow st n t = .ok u →
    (∃ v, u = .varT v ∧ (st.cells v).unified = none) ∨ ∃ o ps, u = .opT o ps
  | 0, t, u, h => by simp only [follow] at h; cases h
  | n + 1, .varT v, u, h => by
    simp only [follow] at h
    cases hu : (st.cells v).unified with
    | some w =>
      rw [hu] at h
      exact follow_shape h
    | none =>
      rw [hu] at h
      exact Or.inl ⟨v, (Except.ok.inj h).symm, hu⟩
  | n + 1, .opT o ps, u, h => by
    simp only [follow] at h
    exact Or.inr ⟨o, ps, (Except.ok.inj h).symm⟩

/-- A `follow` result is a fixpoint of `follow` at any positive fuel. -/
theorem follow_fixpoint {st : State} {n : Nat} {t u : PlainTerm}
    (h : follow st n t = .ok u) {m : Nat} (hm : 1 ≤ m) : follow st m u = .ok u := by
  obtain ⟨m', rfl⟩ : ∃ m', m = m' + 1 := ⟨m - 1, by omega⟩
  rcases follow_shape h with ⟨v, rfl, hroot⟩ | ⟨o, ps, rfl⟩
  · simp only [follow, hroot]
  · simp only [follow]

/-- A `follow` that reaches an operator term is insensitive to state
refinement: the walk never meets a root variable, and set `unified`
pointers persist. -/
theorem follow_stable {st st' : State} (hext : Extends st st') :
    ∀ {n : Nat} {t : PlainTerm} {o : Op} {ps : List PlainTerm},
    follow st n t = .ok (.opT o ps) → follow st' n t = .ok (.opT o ps)
  | 0, t, o, ps, h => by simp only [follow] at h; cases h
  | n + 1, .varT v, o, ps, h => by
    simp only [follow] at h ⊢
    cases hu : (st.cells v).unified with
    | some w =>
      rw [hu] at h
      rw [hext v w hu]
      exact follow_stable hext h
    | none => rw [hu] at h; cases h
  | n + 1, .opT o' ps', o, ps, h => by
    simpa only [follow] using h

/-- If one subtype oracle refines another on definite answers, so do the
corresponding parameter folds. -/
theorem stFoldWith_congr {f g : PlainTerm → PlainTerm → Option Bool}
    (hfg : ∀ x y r, f x y = some r → g x y = some r) :
    ∀ (l : List (Variance × (PlainTerm × PlainTerm))) (acc : Bool) (r : Bool),
      stFoldWith f l acc = some r → stFoldWith g l acc = some r
  | [], acc, r, h => h
  | (v, s, t) :: rest, acc, r, h => by
    simp only [stFoldWith] at h ⊢
    revert h
    cases hv : (if v = .covariant then f s t else f t s) with
    | none => intro h; cases h
    | some r' =>
      intro h
      have : (if v = .covariant then g s t else g t s) = some r' := by
        split at hv <;> split
        · exact hfg _ _ _ hv
        · simp_all
        · simp_all
        · exact hfg _ _ _ hv
      rw [this]
      exact stFoldWith_congr hfg rest (acc && r') r h

/-- Decompose a definite `subtype` answer into its followed heads and the
branch taken. -/
theorem subtypeOf_some_elim {st : State} {n : Nat} {a b : PlainTerm} {r : Bool}
    (h : subtypeOf st (n + 1) a b = some r) :
    ∃ oa pas ob pbs, follow st (n + 1) a = .ok (.opT oa pas) ∧
      follow st (n + 1) b = .ok (.opT ob pbs) ∧
      ((oa.basic = true ∧ r = opLE oa ob) ∨
       (oa.basic = false ∧ opBEq oa ob = false ∧ r = false) ∨
       (oa.basic = false ∧ opBEq oa ob = true ∧
         stFoldWith (subtypeOf st n) (oa.variance.zip (pas.zip pbs)) true = some r)) := by
  simp only [subtypeOf] at h
  split at h
  · rename_i x y oa pas ob pbs hfa hfb
    refine ⟨oa, pas, ob, pbs, hfa, hfb, ?_⟩
    split_ifs at h with h1 h2
    · exact Or.inl ⟨h1, (Option.some.inj h).symm⟩
    · refine Or.inr (Or.inl ⟨by simpa using h1, by simpa using h2, ?_⟩)
      simpa using (Option.some.inj h).symm
    · exact Or.inr (Or.inr ⟨by simpa using h1, by simpa using h2, h⟩)
  · cases h

/-- Rebuild a definite `subtype` answer from followed heads and branch
data. -/
theorem subtypeOf_some_intro {st : State} {m : Nat} {a b : PlainTerm} {r : Bool}
    {oa : Op} {pas : List PlainTerm} {ob : Op} {pbs : List PlainTerm}
    (hfa : follow st (m + 1) a = .ok (.opT oa pas))
    (hfb : follow st (m + 1) b = .ok (.opT ob pbs))
    (hbr : (oa.basic = true ∧ r = opLE oa ob) ∨
       (oa.basic = false ∧ opBEq oa ob = false ∧ r = false) ∨
       (oa.basic = false ∧ opBEq oa ob = true ∧
         stFoldWith (subtypeOf st m) (oa.variance.zip (pas.zip pbs)) true = some r)) :
    subtypeOf st (m + 1) a b = some r := by
  simp only [subtypeOf, hfa, hfb]
  rcases hbr with ⟨h1, h2⟩ | ⟨h1, h2, h3⟩ | ⟨h1, h2, h3⟩
  · simp [h1, h2]
  · simp [h1, h2, h3]
  · simp [h1, h2, h3]

/-- A definite `subtype` answer is fuel-monotone. -/
theorem subtypeOf_mono {st : State} : ∀ {n : Nat} {a b : PlainTerm} {r : Bool},
    subtypeOf st n a b = some r → ∀ {m : Nat}, n ≤ m → subtypeOf st m a b = some r
  | 0, _, _, _, h, _, _ => by simp only [subtypeOf] at h; cases h
  | n + 1, a, b, r, h, m, hm => by
    obtain ⟨m', rfl⟩ : ∃ m', m = m' + 1 := ⟨m - 1, by omega⟩
    obtain ⟨oa, pas, ob, pbs, hfa, hfb, hbr⟩ := subtypeOf_some_elim h
    refine subtypeOf_some_intro (follow_mono hfa (by omega))
      (follow_mono hfb (by omega)) ?_
    rcases hbr with hb | hb | ⟨h1, h2, h3⟩
    · exact Or.inl hb
    · exact Or.inr (Or.inl hb)
    · refine Or.inr (Or.inr ⟨h1, h2, ?_⟩)
      exact stFoldWith_congr
        (fun x y r' h' => subtypeOf_mono h' (show n ≤ m' by omega)) _ _ _ h3

/-- A definite `subtype` answer survives state refinement: the walk never
meets a root variable, and everything else persists. -/
theorem subtypeOf_stable {st st' : State} (hext : Extends st st') :
    ∀ {n : Nat} {a b : PlainTerm} {r : Bool},
    subtypeOf st n a b = some r → subtypeOf st' n a b = some r
  | 0, _, _, _, h => by simp only [subtypeOf] at h; cases h
  | n + 1, a, b, r, h => by
    obtain ⟨oa, pas, ob, pbs, hfa, hfb, hbr⟩ := subtypeOf_some_elim h
    refine subtypeOf_some_intro (follow_stable hext hfa) (follow_stable hext hfb) ?_
    rcases hbr with hb | hb | ⟨h1, h2, h3⟩
    · exact Or.inl hb
    · exact Or.inr (Or.inl hb)
    · refine Or.inr (Or.inr ⟨h1, h2, ?_⟩)
      exact stFoldWith_congr (fun x y r' h' => subtypeOf_stable hext h') _ _ _ h3

/-- Lift a definite answer across refinement and up in fuel. -/
theorem subtypeOf_lift {st st' : State} (hext : Extends st st') {n m : Nat}
    {a b : PlainTerm} {r : Bool} (h : subtypeOf st n a b = some r) (hm : n ≤ m) :
    subtypeOf st' m a b = some r :=
  subtypeOf_mono (subtypeOf_stable hext h) hm

/-- Definite answers in a state and in any refinement of it agree. -/
theorem subtypeOf_det {st st' : State} (hext : Extends st st') {n m : Nat}
    {a b : PlainTerm} {r r' : Bool} (h : subtypeOf st n a b = some r)
    (h' : subtypeOf st' m a b = some r') : r = r' := by
  have h1 := subtypeOf_lift hext h (Nat.le_max_left n m)
  have h2 := subtypeOf_mono h' (Nat.le_max_right n m)
  rw [h1] at h2
  exact Option.some.inj h2

/-- `subtype` only looks at the followed heads: replacing an argument by
its own `follow` result (at the same fuel) does not change the answer. -/
theorem subtypeOf_followed {st : State} {n : Nat} {p q fp fq : PlainTerm}
    (hp : follow st (n + 1) p = .ok fp) (hq : follow st (n + 1) q = .ok fq) :
    subtypeOf st (n + 1) fp fq = subtypeOf st (n + 1) p q := by
  simp only [subtypeOf]
  rw [follow_fixpoint hp (by omega), follow_fixpoint hq (by omega), hp, hq]

/-- A satisfied `Member` loop stays satisfied under refinement and more
fuel. -/
theorem memLoop_stable {st st' : State} (hext : Extends st st') {n₁ n₂ : Nat}
    (hf : n₁ ≤ n₂) {subject : PlainTerm} :
    ∀ alts, memLoop st n₁ subject alts = .ok false →
      memLoop st' n₂ subject alts = .ok false
  | [], h => by simp only [memLoop] at h; cases h
  | other :: rest, h => by
    simp only [memLoop] at h ⊢
    revert h
    cases hs : subtypeOf st n₁ subject other with
    | none => intro h; cases Bool.true_eq_false.mp (Except.ok.inj h)
    | some r =>
      cases r with
      | true =>
        intro _
        rw [subtypeOf_lift hext hs hf]
      | false =>
        intro h
        rw [subtypeOf_lift hext hs hf]
        exact memLoop_stable hext hf rest h

/-- A satisfied `Member` loop can never later raise `ViolatedConstraint`. -/
theorem memLoop_noviol {st st' : State} (hext : Extends st st') {n₁ : Nat}
    {subject : PlainTerm} :
    ∀ alts, memLoop st n₁ subject alts = .ok false →
      ∀ f, memLoop st' f subject alts ≠ .error .violatedConstraint
  | [], h => by simp only [memLoop] at h; cases h
  | other :: rest, h => by
    intro f hviol
    simp only [memLoop] at h hviol
    revert h hviol
    cases hs : subtypeOf st n₁ subject other with
    | none => intro h; cases Bool.true_eq_false.mp (Except.ok.inj h)
    | some r =>
      cases r with
      | true =>
        intro _
        cases hs' : subtypeOf st' f subject other with
        | none => intro hviol; cases hviol
        | some r' =>
          cases r' with
          | true => intro hviol; cases hviol
          | false =>
            intro _
            cases Bool.true_eq_false.mp (subtypeOf_det hext hs hs')
      | false =>
        intro h
        cases hs' : subtypeOf st' f subject other with
        | none => intro hviol; cases hviol
        | some r' =>
          cases r' with
          | true => intro hviol; cases hviol
          | false => exact memLoop_noviol hext rest h f

/-- `subtypeOf_followed` with the positivity of the fuel derived from the
successful follows. -/
theorem subtypeOf_followed' {st : State} {n : Nat} {p q fp fq : PlainTerm}
    (hp : follow st n p = .ok fp) (hq : follow st n q = .ok fq) :
    subtypeOf st n fp fq = subtypeOf st n p q := by
  obtain ⟨k, rfl⟩ : ∃ k, n = k + 1 := by
    cases n with
    | zero => simp only [follow] at hp; cases hp
    | succ k => exact ⟨k, rfl⟩
  exact subtypeOf_followed hp hq

/-- `paramAlts` can only fail with fuel exhaustion. -/
theorem paramAlts_err {st : State} {n : Nat} {fp : PlainTerm} :
    ∀ {alts : List PlainTerm} {e : Err},
      paramAlts st n fp alts = .error e → e = .fuel
  | [], e, h => by simp only [paramAlts] at h; cases h
  | other :: rest, e, h => by
    simp only [paramAlts] at h
    split at h
    · rename_i e' heq
      cases h
      exact follow_err heq
    · split at h
      · cases h
      · cases h
      · exact paramAlts_err h

/-- `paramPs` can only fail with fuel exhaustion. -/
theorem paramPs_err {st : State} {n : Nat} {alts : List PlainTerm} :
    ∀ {ps : List PlainTerm} {e : Err},
      paramPs st n alts ps = .error e → e = .fuel
  | [], e, h => by simp only [paramPs] at h; cases h
  | p :: rest, e, h => by
    simp only [paramPs] at h
    split at h
    · rename_i e' heq
      cases h
      exact follow_err heq
    · split at h
      · rename_i e' heq
        cases h
        exact paramAlts_err heq
      · cases h
      · exact paramPs_err h

/-- Step equation for `paramAlts` when the alternative follows. -/
theorem paramAlts_cons_ok {st : State} {n : Nat} {fp other fo : PlainTerm}
    {rest : List PlainTerm} (hfo : follow st n other = .ok fo) :
    paramAlts st n fp (other :: rest) =
      (match subtypeOf st n fp fo with
       | some true => .ok (some false)
       | none => .ok (some true)
       | some false => paramAlts st n fp rest) := by
  simp only [paramAlts, hfo]

/-- Step equation for `paramAlts` when the alternative's follow fails. -/
theorem paramAlts_cons_err {st : State} {n : Nat} {fp other : PlainTerm}
    {rest : List PlainTerm} {e : Err} (hfo : follow st n other = .error e) :
    paramAlts st n fp (other :: rest) = .error e := by
  simp only [paramAlts, hfo]

/-- Step equation for `paramPs` when the parameter follows. -/
theorem paramPs_cons_ok {st : State} {n : Nat} {alts : List PlainTerm}
    {p fp : PlainTerm} {rest : List PlainTerm} (hfp : follow st n p = .ok fp) :
    paramPs st n alts (p :: rest) =
      (match paramAlts st n fp alts with
       | .error e => .error e
       | .ok (some b) => .ok (some b)
       | .ok none => paramPs st n alts rest) := by
  simp only [paramPs, hfp]

/-- Step equation for `paramPs` when the parameter's follow fails. -/
theorem paramPs_cons_err {st : State} {n : Nat} {alts : List PlainTerm}
    {p : PlainTerm} {rest : List PlainTerm} {e : Err}
    (hfp : follow st n p = .error e) :
    paramPs st n alts (p :: rest) = .error e := by
  simp only [paramPs, hfp]

/-- A `Param` alternative loop that fell through (`none`) or satisfied the
constraint (`some false`) repeats that verdict under refinement and more
fuel, unless a follow runs out of fuel. -/
theorem paramAlts_stable {st st' : State} (hext : Extends st st') {n₁ n₂ : Nat}
    (hf : n₁ ≤ n₂) {p fp fp' : PlainTerm}
    (hp : follow st n₁ p = .ok fp) (hp' : follow st' n₂ p = .ok fp') :
    ∀ (alts : List PlainTerm) (r0 : Option Bool), (r0 = none ∨ r0 = some false) →
      paramAlts st n₁ fp alts = .ok r0 →
      paramAlts st' n₂ fp' alts = .ok r0 ∨ paramAlts st' n₂ fp' alts = .error .fuel
  | [], r0, hr0, h => by
    simp only [paramAlts] at h ⊢
    exact Or.inl h
  | other :: rest, r0, hr0, h => by
    cases hfo : follow st n₁ other with
    | error e => rw [paramAlts_cons_err hfo] at h; cases h
    | ok fo =>
      rw [paramAlts_cons_ok hfo] at h
      have hins : subtypeOf st n₁ fp fo = subtypeOf st n₁ p other :=
        subtypeOf_followed' hp hfo
      cases hfo' : follow st' n₂ other with
      | error e' =>
        right
        have he : e' = .fuel := follow_err hfo'
        subst he
        exact paramAlts_cons_err hfo'
      | ok fo' =>
        have hins' : subtypeOf st' n₂ fp' fo' = subtypeOf st' n₂ p other :=
          subtypeOf_followed' hp' hfo'
        rw [paramAlts_cons_ok hfo']
        revert h
        cases hs : subtypeOf st n₁ fp fo with
        | none =>
          intro h
          cases h
          rcases hr0 with h' | h' <;> cases h'
        | some r =>
          have hlift : subtypeOf st' n₂ fp' fo' = some r := by
            rw [hins']
            exact subtypeOf_lift hext (hins ▸ hs) hf
          cases r with
          | true =>
            intro h
            rw [hlift]
            exact Or.inl h
          | false =>
            intro h
            rw [hlift]
            exact paramAlts_stable hext hf hp hp' rest r0 hr0 h

/-- A `Param` alternative loop that satisfied the constraint can never
later fall through to the violation. -/
theorem paramAlts_noviol {st st' : State} (hext : Extends st st') {n₁ : Nat}
    {p fp : PlainTerm} (hp : follow st n₁ p = .ok fp) :
    ∀ (alts : List PlainTerm), paramAlts st n₁ fp alts = .ok (some false) →
      ∀ (f : Nat) (fp'' : PlainTerm), follow st' f p = .ok fp'' →
        paramAlts st' f fp'' alts ≠ .ok none
  | [], h => by simp only [paramAlts] at h; cases h
  | other :: rest, h => by
    intro f fp'' hp'' hcon
    cases hfo : follow st n₁ other with
    | error e => rw [paramAlts_cons_err hfo] at h; cases h
    | ok fo =>
      rw [paramAlts_cons_ok hfo] at h
      have hins : subtypeOf st n₁ fp fo = subtypeOf st n₁ p other :=
        subtypeOf_followed' hp hfo
      cases hfo' : follow st' f other with
      | error e' => rw [paramAlts_cons_err hfo'] at hcon; cases hcon
      | ok fo' =>
        rw [paramAlts_cons_ok hfo'] at hcon
        have hins' : subtypeOf st' f fp'' fo' = subtypeOf st' f p other :=
          subtypeOf_followed' hp'' hfo'
        revert h hcon
        cases hs : subtypeOf st n₁ fp fo with
        | none => intro h; cases h
        | some r =>
          cases hs' : subtypeOf st' f fp'' fo' with
          | none => intro _ hcon; cases hcon
          | some r' =>
            have hrr : r = r' :=
              subtypeOf_det hext (hins ▸ hs) (hins' ▸ hs')
            subst hrr
            cases r with
            | true => intro _ hcon; cases hcon
            | false =>
              intro h hcon
              exact paramAlts_noviol hext hp rest h f fp'' hp'' hcon

/-- A satisfied `Param` parameter loop repeats its verdict under
refinement and more fuel, unless a follow runs out of fuel. -/
theorem paramPs_stable {st st' : State} (hext : Extends st st') {n₁ n₂ : Nat}
    (hf : n₁ ≤ n₂) {alts : List PlainTerm} :
    ∀ (ps : List PlainTerm), paramPs st n₁ alts ps = .ok (some false) →
      paramPs st' n₂ alts ps = .ok (some false) ∨
        paramPs st' n₂ alts ps = .error .fuel
  | [], h => by simp only [paramPs] at h; cases h
  | p :: rest, h => by
    cases hfp : follow st n₁ p with
    | error e => rw [paramPs_cons_err hfp] at h; cases h
    | ok fp =>
      rw [paramPs_cons_ok hfp] at h
      cases hfp' : follow st' n₂ p with
      | error e' =>
        right
        have he : e' = .fuel := follow_err hfp'
        subst he
        exact paramPs_cons_err hfp'
      | ok fp' =>
        rw [paramPs_cons_ok hfp']
        revert h
        cases hpa : paramAlts st n₁ fp alts with
        | error e => intro h; cases h
        | ok r =>
          cases r with
          | some b =>
            intro h
            cases h
            rcases paramAlts_stable hext hf hfp hfp' alts (some false)
                (Or.inr rfl) hpa with h' | h'
            · rw [h']; exact Or.inl rfl
            · rw [h']; exact Or.inr rfl
          | none =>
            intro h
            rcases paramAlts_stable hext hf hfp hfp' alts none
                (Or.inl rfl) hpa with h' | h'
            · rw [h']
              exact paramPs_stable hext hf rest h
            · rw [h']; exact Or.inr rfl

/-- A satisfied `Param` parameter loop can never later fall through to
the violation. -/
theorem paramPs_noviol {st st' : State} (hext : Extends st st') {n₁ : Nat}
    {alts : List PlainTerm} :
    ∀ (ps : List PlainTerm), paramPs st n₁ alts ps = .ok (some false) →
      ∀ f, paramPs st' f alts ps ≠ .ok none
  | [], h => by simp only [paramPs] at h; cases h
  | p :: rest, h => by
    intro f hcon
    cases hfp : follow st n₁ p with
    | error e => rw [paramPs_cons_err hfp] at h; cases h
    | ok fp =>
      rw [paramPs_cons_ok hfp] at h
      cases hfp' : follow st' f p with
      | error e' => rw [paramPs_cons_err hfp'] at hcon; cases hcon
      | ok fp'' =>
        rw [paramPs_cons_ok hfp'] at hcon
        revert h hcon
        cases hpa : paramAlts st n₁ fp alts with
        | error e => intro h; cases h
        | ok r =>
          cases r with
          | some b =>
            intro h
            cases h
            cases hpa' : paramAlts st' f fp'' alts with
            | error e => intro hcon; cases hcon
            | ok r' =>
              cases r' with
              | some b' => intro hcon; cases hcon
              | none =>
                intro _
                exact absurd hpa' (paramAlts_noviol hext hfp alts hpa f fp'' hfp')
          | none =>
            intro h
            cases hpa' : paramAlts st' f fp'' alts with
            | error e => intro hcon; cases hcon
            | ok r' =>
              cases r' with
              | some b' => intro hcon; cases hcon
              | none =>
                intro hcon
                exact paramPs_noviol hext rest h f hcon

/-- A satisfied position-free `Param` branch repeats its verdict under
refinement and more fuel, up to fuel exhaustion. -/
theorem paramAll_stable {st st' : State} (hext : Extends st st') {n₁ n₂ : Nat}
    (hf : n₁ ≤ n₂) {alts ps : List PlainTerm}
    (h : paramAll st n₁ alts ps = .ok false) :
    paramAll st' n₂ alts ps = .ok false ∨ paramAll st' n₂ alts ps = .error .fuel := by
  unfold paramAll at h ⊢
  revert h
  cases hps : paramPs st n₁ alts ps with
  | error e => intro h; cases h
  | ok r =>
    cases r with
    | none => intro h; cases h
    | some b =>
      intro h
      cases h
      rcases paramPs_stable hext hf ps hps with h' | h' <;> rw [h']
      · exact Or.inl rfl
      · exact Or.inr rfl

/-- A satisfied position-free `Param` branch never later violates. -/
theorem paramAll_noviol {st st' : State} (hext : Extends st st') {n₁ : Nat}
    {alts ps : List PlainTerm} (h : paramAll st n₁ alts ps = .ok false) :
    ∀ f, paramAll st' f alts ps ≠ .error .violatedConstraint := by
  intro f hcon
  unfold paramAll at h hcon
  revert h
  cases hps : paramPs st n₁ alts ps with
  | error e => intro h; cases h
  | ok r =>
    cases r with
    | none => intro h; cases h
    | some b =>
      intro h
      cases h
      revert hcon
      cases hps' : paramPs st' f alts ps with
      | error e =>
        intro hcon
        cases hcon
        exact absurd (paramPs_err hps') (by simp)
      | ok r' =>
        cases r' with
        | some b' => intro hcon; cases hcon
        | none => exact fun _ => paramPs_noviol hext ps hps f hps'


/-- Step equation for `paramAtCore` when the parameter follows. -/
theorem paramAtCore_ok {st : State} {n : Nat} {alts : List PlainTerm}
    {p fp : PlainTerm} (hfp : follow st n p = .ok fp) :
    paramAtCore st n alts p =
      (match paramAlts st n fp alts with
       | .error e => .error e
       | .ok (some b) => .ok b
       | .ok none => .error .violatedConstraint) := by
  simp only [paramAtCore, hfp]

/-- Step equation for `paramAtCore` when the parameter's follow fails. -/
theorem paramAtCore_err {st : State} {n : Nat} {alts : List PlainTerm}
    {p : PlainTerm} {e : Err} (hfp : follow st n p = .error e) :
    paramAtCore st n alts p = .error e := by
  simp only [paramAtCore, hfp]

/-- Step equation for `paramAt` at an in-range position. -/
theorem paramAt_in {st : State} {n : Nat} {alts ps : List PlainTerm} {pos : Int}
    {p : PlainTerm} (hrange : pos - 1 < (ps.length : Int))
    (hg : pyGet ps (pos - 1) = .ok p) :
    paramAt st n alts ps pos = paramAtCore st n alts p := by
  simp only [paramAt, if_pos hrange, hg]

/-- A satisfied `paramAtCore` repeats its verdict under refinement and
more fuel, up to fuel exhaustion. -/
theorem paramAtCore_stable {st st' : State} (hext : Extends st st') {n₁ n₂ : Nat}
    (hf : n₁ ≤ n₂) {alts : List PlainTerm} {p : PlainTerm}
    (h : paramAtCore st n₁ alts p = .ok false) :
    paramAtCore st' n₂ alts p = .ok false ∨
      paramAtCore st' n₂ alts p = .error .fuel := by
  cases hfp : follow st n₁ p with
  | error e => rw [paramAtCore_err hfp] at h; cases h
  | ok fp =>
    rw [paramAtCore_ok hfp] at h
    cases hfp' : follow st' n₂ p with
    | error e' =>
      right
      have he : e' = .fuel := follow_err hfp'
      subst he
      exact paramAtCore_err hfp'
    | ok fp' =>
      rw [paramAtCore_ok hfp']
      revert h
      cases hpa : paramAlts st n₁ fp alts with
      | error e => intro h; cases h
      | ok r =>
        cases r with
        | none => intro h; cases h
        | some b =>
          intro h
          cases h
          rcases paramAlts_stable hext hf hfp hfp' alts (some false)
              (Or.inr rfl) hpa with h' | h' <;> rw [h']
          · exact Or.inl rfl
          · exact Or.inr rfl

/-- A satisfied `paramAtCore` never later violates. -/
theorem paramAtCore_noviol {st st' : State} (hext : Extends st st') {n₁ : Nat}
    {alts : List PlainTerm} {p : PlainTerm}
    (h : paramAtCore st n₁ alts p = .ok false) :
    ∀ f, paramAtCore st' f alts p ≠ .error .violatedConstraint := by
  intro f hcon
  cases hfp : follow st n₁ p with
  | error e => rw [paramAtCore_err hfp] at h; cases h
  | ok fp =>
    rw [paramAtCore_ok hfp] at h
    revert h
    cases hpa : paramAlts st n₁ fp alts with
    | error e => intro h; cases h
    | ok r =>
      cases r with
      | none => intro h; cases h
      | some b =>
        intro h
        cases h
        cases hfp' : follow st' f p with
        | error e' =>
          rw [paramAtCore_err hfp'] at hcon
          cases hcon
          exact absurd (follow_err hfp') (by simp)
        | ok fp'' =>
          rw [paramAtCore_ok hfp'] at hcon
          revert hcon
          cases hpa' : paramAlts st' f fp'' alts with
          | error e' =>
            intro hcon
            cases hcon
            exact absurd (paramAlts_err hpa') (by simp)
          | ok r' =>
            cases r' with
            | some b' => intro hcon; cases hcon
            | none =>
              intro _
              exact absurd hpa' (paramAlts_noviol hext hfp alts hpa f fp'' hfp')

/-- A satisfied positional `Param` branch repeats its verdict under
refinement and more fuel, up to fuel exhaustion. -/
theorem paramAt_stable {st st' : State} (hext : Extends st st') {n₁ n₂ : Nat}
    (hf : n₁ ≤ n₂) {alts ps : List PlainTerm} {pos : Int}
    (h : paramAt st n₁ alts ps pos = .ok false) :
    paramAt st' n₂ alts ps pos = .ok false ∨
      paramAt st' n₂ alts ps pos = .error .fuel := by
  by_cases hrange : pos - 1 < (ps.length : Int)
  · cases hg : pyGet ps (pos - 1) with
    | error e =>
      rw [show paramAt st n₁ alts ps pos = .error e from by
        simp only [paramAt, if_pos hrange, hg]] at h
      cases h
    | ok p =>
      rw [paramAt_in hrange hg] at h
      rw [paramAt_in hrange hg]
      exact paramAtCore_stable hext hf h
  · rw [show paramAt st n₁ alts ps pos = .error .violatedConstraint from by
      simp only [paramAt, if_neg hrange]] at h
    cases h

/-- A satisfied positional `Param` branch never later violates. -/
theorem paramAt_noviol {st st' : State} (hext : Extends st st') {n₁ : Nat}
    {alts ps : List PlainTerm} {pos : Int}
    (h : paramAt st n₁ alts ps pos = .ok false) :
    ∀ f, paramAt st' f alts ps pos ≠ .error .violatedConstraint := by
  intro f hcon
  by_cases hrange : pos - 1 < (ps.length : Int)
  · cases hg : pyGet ps (pos - 1) with
    | error e =>
      rw [show paramAt st n₁ alts ps pos = .error e from by
        simp only [paramAt, if_pos hrange, hg]] at h
      cases h
    | ok p =>
      rw [paramAt_in hrange hg] at h
      rw [paramAt_in hrange hg] at hcon
      exact paramAtCore_noviol hext h f hcon
  · rw [show paramAt st n₁ alts ps pos = .error .violatedConstraint from by
      simp only [paramAt, if_neg hrange]] at h
    cases h

/-- Step equation for `enforceParam` when the subject's follow fails. -/
theorem enforceParam_sub_err {st : State} {n : Nat} {subject₀ : PlainTerm}
    {alts : List PlainTerm} {pos? : Option Int} {e : Err}
    (hs : follow st n subject₀ = .error e) :
    enforceParam st n (subject₀ :: alts) pos? = .error e := by
  simp only [enforceParam, hs]

/-- Step equation for `enforceParam` on a variable subject. -/
theorem enforceParam_sub_var {st : State} {n : Nat} {subject₀ : PlainTerm}
    {alts : List PlainTerm} {pos? : Option Int} {v : Nat}
    (hs : follow st n subject₀ = .ok (.varT v)) :
    enforceParam st n (subject₀ :: alts) pos? = .ok true := by
  simp only [enforceParam, hs]

/-- Step equation for `enforceParam` on an operator-term subject. -/
theorem enforceParam_sub_op {st : State} {n : Nat} {subject₀ : PlainTerm}
    {alts : List PlainTerm} {pos? : Option Int} {o : Op} {ps : List PlainTerm}
    (hs : follow st n subject₀ = .ok (.opT o ps)) :
    enforceParam st n (subject₀ :: alts) pos? =
      (match pos? with
       | none => paramAll st n alts ps
       | some pos => paramAt st n alts ps pos) := by
  simp only [enforceParam, hs]

/-- C8: constraint monotonicity.  If a `Member` or `Param` constraint's
`enforce` returns `false` (permanently satisfied) in some state, then in
every refinement of that state a later `enforce` call with at least as
much fuel again returns `false` (or runs out of fuel while following a
chain, which in the source is non-termination, not a different verdict),
and no later `enforce` call — with any fuel — raises
`ViolatedConstraint`.  In particular a call that raises can never have
been preceded by one that returned `false`. -/
theorem c8_constraint_monotone (st st' : State) (c : Constr) (fuel₁ fuel₂ : Nat)
    (hext : Extends st st') (h : enforceC st fuel₁ c = .ok false) :
    (fuel₁ ≤ fuel₂ →
      enforceC st' fuel₂ c = .ok false ∨ enforceC st' fuel₂ c = .error .fuel) ∧
    (∀ f, enforceC st' f c ≠ .error .violatedConstraint) := by
  cases c with
  | member pats =>
    cases pats with
    | nil => simp only [enforceC, enforceMember] at h; cases h
    | cons subject alts =>
      simp only [enforceC, enforceMember] at h ⊢
      exact ⟨fun hf => Or.inl (memLoop_stable hext hf alts h),
             fun f => memLoop_noviol hext alts h f⟩
  | param pats pos? =>
    cases pats with
    | nil => simp only [enforceC, enforceParam] at h; cases h
    | cons subject₀ alts =>
      simp only [enforceC] at h ⊢
      cases hsub : follow st fuel₁ subject₀ with
      | error e => rw [enforceParam_sub_err hsub] at h; cases h
      | ok u =>
        cases u with
        | varT v =>
          rw [enforceParam_sub_var hsub] at h
          cases Bool.true_eq_false.mp (Except.ok.inj h)
        | opT o ps =>
          rw [enforceParam_sub_op hsub] at h
          constructor
          · intro hf
            have hsub2 : follow st' fuel₂ subject₀ = .ok (.opT o ps) :=
              follow_mono (follow_stable hext hsub) hf
            rw [enforceParam_sub_op hsub2]
            cases pos? with
            | none => exact paramAll_stable hext hf h
            | some pos => exact paramAt_stable hext hf h
          · intro f hcon
            cases hsub' : follow st' f subject₀ with
            | error e =>
              rw [enforceParam_sub_err hsub'] at hcon
              cases hcon
              exact absurd (follow_err hsub') (by simp)
            | ok u' =>
              have hsame : u' = .opT o ps :=
                follow_det hsub' (follow_stable hext hsub)
              subst hsame
              rw [enforceParam_sub_op hsub'] at hcon
              cases pos? with
              | none => exact paramAll_noviol hext h f hcon
              | some pos => exact paramAt_noviol hext h f hcon

/-- C8 witness: a `Member(Int, [Any])` constraint is satisfied, stays
satisfied in the same (trivially refined) state, and never violates. -/
theorem c8_witness :
    (enforceC (initState 0) 5 (.member [tInt, tAny]) = .ok false ∨
      enforceC (initState 0) 5 (.member [tInt, tAny]) = .error .fuel) ∧
    enforceC (initState 0) 7 (.member [tInt, tAny]) ≠ .error .violatedConstraint :=
  ⟨(c8_constraint_monotone (initState 0) (initState 0) (.member [tInt, tAny]) 5 5
      (fun _ _ hu => hu) rfl).1 (by omega),
   (c8_constraint_monotone (initState 0) (initState 0) (.member [tInt, tAny]) 5 7
      (fun _ _ hu => hu) rfl).2 7⟩

/-- `ResolveStep` is reflexive. -/
theorem ResolveStep.refl (st : State) : ResolveStep st st :=
  fun _ => ⟨rfl, rfl, Or.inl rfl⟩

/-- `ResolveStep` composes. -/
theorem ResolveStep.trans {st₁ st₂ st₃ : State}
    (h₁ : ResolveStep st₁ st₂) (h₂ : ResolveStep st₂ st₃) : ResolveStep st₁ st₃ := by
  intro v
  obtain ⟨hl₁, hu₁, hun₁⟩ := h₁ v
  obtain ⟨hl₂, hu₂, hun₂⟩ := h₂ v
  refine ⟨hl₂.trans hl₁, hu₂.trans hu₁, ?_⟩
  rcases hun₂ with h2 | ⟨h2none, o, hb, h2some, h2from⟩
  · rw [h2]
    exact hun₁
  · rcases hun₁ with h1 | ⟨h1none, o', hb', h1some, h1from⟩
    · rw [h1] at h2none
      rw [hl₁, hu₁] at h2from
      exact Or.inr ⟨h2none, o, hb, h2some, h2from⟩
    · rw [h1some] at h2none
      cases h2none
  
/-- A `ResolveStep` is in particular an `Extends`. -/
theorem ResolveStep.extends_ {st st' : State} (h : ResolveStep st st') :
    Extends st st' := by
  intro v u hu
  obtain ⟨_, _, hun⟩ := h v
  rcases hun with h1 | ⟨h1none, _⟩
  · rw [h1, hu]
  · rw [h1none] at hu
    cases hu

/-- The cell rewritten by `setUnified`. -/
theorem setUnified_cells_self (st : State) (v : Nat) (t : PlainTerm) :
    (setUnified st v t).cells v = { st.cells v with unified := some t } := by
  simp [setUnified, setCell]

/-- Cells other than the rewritten one are untouched by `setUnified`. -/
theorem setUnified_cells_other (st : State) (v w : Nat) (t : PlainTerm)
    (h : w ≠ v) : (setUnified st v t).cells w = st.cells w := by
  simp [setUnified, setCell, h]

/-- A successful `fuseBound` on a root cell records exactly the basic
operator term of the bound. -/
theorem fuseBound_ok {st : State} {v : Nat} {o : Op} {st₁ : State}
    (hroot : (st.cells v).unified = none)
    (h : fuseBound st v o = .ok st₁) :
    o.basic = true ∧ st₁ = setUnified st v (.opT o []) := by
  unfold fuseBound at h
  split at h
  · cases h
  · rename_i t hmk
    have hb : o.basic = true := by
      unfold mkOpT at hmk
      by_cases hl : ([] : List PlainTerm).length = o.variance.length
      · simp only [List.length_nil] at hl
        simp [Op.basic, List.isEmpty_iff]
        exact (List.length_eq_zero.mp hl.symm)
      · rw [if_neg hl] at hmk
        cases hmk
    refine ⟨hb, ?_⟩
    simp only [unifyOp, hroot, Bool.not_true, Bool.false_eq_true, if_false, hb, if_true] at h
    split_ifs at h with h1 h2
    all_goals cases h
    all_goals rfl

/-- What a successful variable step of `resolve` does on a root cell:
either no applicable bound existed and the state is unchanged, or the
cell was fused with a basic operator term taken from its own bounds. -/
theorem resolveVarStep_spec {force : Bool} {st : State} {pl : Bool} {v : Nat}
    {st₁ : State} (hroot : (st.cells v).unified = none)
    (h : resolveVarStep force st pl v = .ok st₁) :
    (st₁ = st ∧
      (pl = true → (st.cells v).lower = none) ∧
      (pl = false → (st.cells v).upper = none) ∧
      (force = true → (st.cells v).lower = none ∧ (st.cells v).upper = none)) ∨
    (∃ o, o.basic = true ∧ st₁ = setUnified st v (.opT o []) ∧
      ((st.cells v).lower = some o ∨ (st.cells v).upper = some o)) := by
  simp only [resolveVarStep] at h
  cases pl with
  | true =>
    rw [if_pos rfl] at h
    revert h
    cases hl : (st.cells v).lower with
    | some l =>
      intro h
      obtain ⟨hb, rfl⟩ := fuseBound_ok hroot h
      exact Or.inr ⟨l, hb, rfl, Or.inl rfl⟩
    | none =>
      cases force with
      | true =>
        rw [if_pos rfl]
        cases hu : (st.cells v).upper with
        | some u =>
          intro h
          obtain ⟨hb, rfl⟩ := fuseBound_ok hroot h
          exact Or.inr ⟨u, hb, rfl, Or.inr rfl⟩
        | none =>
          intro h
          cases h
          exact Or.inl ⟨rfl, fun _ => rfl, fun hpf => Bool.noConfusion hpf,
            fun _ => ⟨rfl, rfl⟩⟩
      | false =>
        rw [if_neg (by simp)]
        intro h
        cases h
        exact Or.inl ⟨rfl, fun _ => rfl, fun hpf => Bool.noConfusion hpf,
          fun hfo => Bool.noConfusion hfo⟩
  | false =>
    rw [if_neg (by simp)] at h
    revert h
    cases hu : (st.cells v).upper with
    | some u =>
      intro h
      obtain ⟨hb, rfl⟩ := fuseBound_ok hroot h
      exact Or.inr ⟨u, hb, rfl, Or.inr rfl⟩
    | none =>
      cases force with
      | true =>
        rw [if_pos rfl]
        cases hl : (st.cells v).lower with
        | some l =>
          intro h
          obtain ⟨hb, rfl⟩ := fuseBound_ok hroot h
          exact Or.inr ⟨l, hb, rfl, Or.inl rfl⟩
        | none =>
          intro h
          cases h
          exact Or.inl ⟨rfl, fun hpt => Bool.noConfusion hpt, fun _ => rfl,
            fun _ => ⟨rfl, rfl⟩⟩
      | false =>
        rw [if_neg (by simp)]
        intro h
        cases h
        exact Or.inl ⟨rfl, fun hpt => Bool.noConfusion hpt, fun _ => rfl,
          fun hfo => Bool.noConfusion hfo⟩

/-- Fusing a root cell with a basic operator term drawn from its own
bounds is a `ResolveStep`. -/
theorem ResolveStep.setUnified_basic {st : State} {v : Nat} {o : Op}
    (hroot : (st.cells v).unified = none) (hb : o.basic = true)
    (hfrom : (st.cells v).lower = some o ∨ (st.cells v).upper = some o) :
    ResolveStep st (setUnified st v (.opT o [])) := by
  intro w
  by_cases hw : w = v
  · subst hw
    rw [setUnified_cells_self]
    exact ⟨rfl, rfl, Or.inr ⟨hroot, o, hb, rfl, hfrom⟩⟩
  · rw [setUnified_cells_other st v w _ hw]
    exact ⟨rfl, rfl, Or.inl rfl⟩

/-- The variable step of `resolve` is a `ResolveStep`. -/
theorem resolveVarStep_step {force : Bool} {st : State} {pl : Bool} {v : Nat}
    {st₁ : State} (hroot : (st.cells v).unified = none)
    (h : resolveVarStep force st pl v = .ok st₁) : ResolveStep st st₁ := by
  rcases resolveVarStep_spec hroot h with ⟨rfl, _⟩ | ⟨o, hb, rfl, hfrom⟩
  · exact ResolveStep.refl _
  · exact ResolveStep.setUnified_basic hroot hb hfrom

/-- The parameter loop of `resolve` performs only `ResolveStep`s,
provided each single resolution does. -/
theorem resolveParamsWith_step {rec1 : State → Bool → PlainTerm → Except Err (PlainTerm × State)}
    (hrec : ∀ {st : State} {pl : Bool} {p r : PlainTerm} {st' : State},
      rec1 st pl p = .ok (r, st') → ResolveStep st st') :
    ∀ {l : List (Variance × PlainTerm)} {st : State} {pl : Bool}
      {out : List PlainTerm} {st' : State},
      resolveParamsWith rec1 st pl l = .ok (out, st') → ResolveStep st st'
  | [], st, pl, out, st', h => by
    simp only [resolveParamsWith] at h
    cases h
    exact ResolveStep.refl st
  | (v, p) :: rest, st, pl, out, st', h => by
    simp only [resolveParamsWith] at h
    split at h
    · cases h
    · rename_i pr heq1
      split at h
      · cases h
      · rename_i pr2 heq2
        cases h
        exact ResolveStep.trans (hrec heq1) (resolveParamsWith_step hrec heq2)

/-- One `resolve` pass performs only `ResolveStep`s. -/
theorem resolvePlain_step (force rs : Bool) :
    ∀ {fuel : Nat} {st : State} {pl : Bool} {t r : PlainTerm} {st' : State},
      resolvePlain force rs fuel st pl t = .ok (r, st') → ResolveStep st st'
  | 0, st, pl, t, r, st', h => by simp only [resolvePlain] at h; cases h
  | fuel + 1, st, pl, t, r, st', h => by
    simp only [resolvePlain] at h
    split at h
    · cases h
    · rename_i o ps hfo
      split at h
      · cases h
      · rename_i pr heq1
        split at h
        · cases h
        · cases h
          exact resolveParamsWith_step
            (fun h' => resolvePlain_step force rs h') heq1
    · rename_i v hfv
      have hroot : (st.cells v).unified = none := by
        rcases follow_shape hfv with ⟨w, hw, hwroot⟩ | ⟨o, ps, hops⟩
        · cases hw; exact hwroot
        · cases hops
      revert h
      cases rs with
      | false =>
        intro h
        simp only [Bool.not_false, if_true] at h
        cases h
        exact ResolveStep.refl st
      | true =>
        intro h
        simp only [Bool.not_true, Bool.false_eq_true, if_false] at h
        revert h
        split
        · intro h; cases h
        · rename_i st₁ heq1
          split
          · intro h; cases h
          · rename_i rr heq2
            intro h
            cases h
            exact resolveVarStep_step hroot heq1

/-- `Settled` terms stay settled across a `ResolveStep`: a root either
stays a root with unchanged bounds or becomes fused with a basic
operator term. -/
theorem Settled.mono_state {st st' : State} {force rs : Bool}
    (hstep : ResolveStep st st') :
    ∀ {pl : Bool} {t : PlainTerm}, Settled st force rs pl t →
      Settled st' force rs pl t := by
  intro pl t h
  induction h with
  | var_root pl v hroot hbound =>
    obtain ⟨hl, hu, hun⟩ := hstep v
    rcases hun with h1 | ⟨h1none, o, hb, h1some, h1from⟩
    · refine Settled.var_root pl v (h1.trans hroot) ?_
      intro hrs
      rw [hl, hu]
      exact hbound hrs
    · exact Settled.var_basic pl v o h1some hb
  | var_basic pl v o hu hb =>
    rcases (hstep v).2.2 with h1 | ⟨h1none, _⟩
    · exact Settled.var_basic pl v o (h1.trans hu) hb
    · rw [h1none] at hu
      cases hu
  | op pl o ps hlen hps ih =>
    exact Settled.op pl o ps hlen fun vp hvp => ih vp hvp

/-- The parameter loop of `resolve` returns parameters that are settled,
at their positions' preference, in the final state. -/
theorem resolveParamsWith_settled {force rs : Bool}
    {rec1 : State → Bool → PlainTerm → Except Err (PlainTerm × State)}
    (hstep : ∀ {st : State} {pl : Bool} {p r : PlainTerm} {st' : State},
      rec1 st pl p = .ok (r, st') → ResolveStep st st')
    (hsettle : ∀ {st : State} {pl : Bool} {p r : PlainTerm} {st' : State},
      rec1 st pl p = .ok (r, st') → Settled st' force rs pl r) :
    ∀ {l : List (Variance × PlainTerm)} {st : State} {pl : Bool}
      {out : List PlainTerm} {st' : State},
      resolveParamsWith rec1 st pl l = .ok (out, st') →
      out.length = l.length ∧
      ∀ vp ∈ (l.map Prod.fst).zip out,
        Settled st' force rs (pl.xor (vp.1 = .contravariant)) vp.2
  | [], st, pl, out, st', h => by
    simp only [resolveParamsWith] at h
    cases h
    exact ⟨rfl, fun vp hvp => by cases hvp⟩
  | (v, p) :: rest, st, pl, out, st', h => by
    simp only [resolveParamsWith] at h
    split at h
    · cases h
    · rename_i pr heq1
      split at h
      · cases h
      · rename_i pr2 heq2
        obtain ⟨r, st₁⟩ := pr
        obtain ⟨rrest, st₂⟩ := pr2
        cases h
        obtain ⟨ihlen, ihmem⟩ := resolveParamsWith_settled hstep hsettle heq2
        refine ⟨by simpa using ihlen, ?_⟩
        intro vp hvp
        simp only [List.map_cons, List.zip_cons_cons, List.mem_cons] at hvp
        rcases hvp with rfl | hvp
    
        · exact Settled.mono_state (resolveParamsWith_step hstep heq2)
            (hsettle heq1)
        · exact ihmem vp hvp

/-- One `resolve` pass returns a settled term. -/
theorem resolvePlain_settled (force rs : Bool) :
    ∀ {fuel : Nat} {st : State} {pl : Bool} {t r : PlainTerm} {st' : State},
      resolvePlain force rs fuel st pl t = .ok (r, st') → Settled st' force rs pl r
  | 0, st, pl, t, r, st', h => by simp only [resolvePlain] at h; cases h
  | fuel + 1, st, pl, t, r, st', h => by
    simp only [resolvePlain] at h
    split at h
    · cases h
    · rename_i o ps hfo
      split at h
      · cases h
      · rename_i ps' st₂ heq1
        split at h
        · cases h
        · rename_i rr heq2
          cases h
          have hlen' : ps'.length = o.variance.length ∧ r = .opT o ps' := by
            unfold mkOpT at heq2
            split_ifs at heq2 with hl
            exact ⟨hl, (Except.ok.inj heq2).symm⟩
          obtain ⟨hlen', rfl⟩ := hlen'
          obtain ⟨hout, hmem⟩ := resolveParamsWith_settled
            (fun h' => resolvePlain_step force rs h')
            (fun h' => resolvePlain_settled force rs h') heq1
          refine Settled.op _ o ps' hlen' ?_
          intro vp hvp
          have hvl : o.variance.length ≤ ps.length := by
            have := hout
            simp only [List.length_zip] at this
            omega
          have : ((o.variance.zip ps).map Prod.fst) = o.variance :=
            List.map_fst_zip o.variance ps hvl
          rw [← this] at hvp
          exact hmem vp hvp
    · rename_i v hfv
      have hroot : (st.cells v).unified = none := by
        rcases follow_shape hfv with ⟨w, hw, hwroot⟩ | ⟨o, ps, hops⟩
        · cases hw; exact hwroot
        · cases hops
      revert h
      cases rs with
      | false =>
        intro h
        simp only [Bool.not_false, if_true] at h
        cases h
        exact Settled.var_root _ v hroot fun hrs => Bool.noConfusion hrs
      | true =>
        intro h
        simp only [Bool.not_true, Bool.false_eq_true, if_false] at h
        revert h
        split
        · intro h; cases h
        · rename_i st₁ heq1
          split
          · intro h; cases h
          · rename_i rr heq2
            intro h
            cases h
            rcases resolveVarStep_spec hroot heq1 with ⟨rfl, c1, c2, c3⟩ |
                ⟨o, hb, rfl, hfrom⟩
            · have hr : r = .varT v := by
                simp only [follow, hroot] at heq2
                exact (Except.ok.inj heq2).symm
              subst hr
              exact Settled.var_root _ v hroot fun _ => ⟨c1, c2, c3⟩
            · have hcell : ((setUnified st v (.opT o [])).cells v).unified =
                  some (.opT o []) := by
                rw [setUnified_cells_self]
              have hr : r = .opT o [] := by
                simp only [follow, hcell] at heq2
                revert heq2
                cases fuel with
                | zero => intro heq2; simp only [follow] at heq2; cases heq2
                | succ f =>
                  intro heq2
                  simp only [follow] at heq2
                  exact (Except.ok.inj heq2).symm
              subst hr
              refine Settled.op _ o [] ?_ ?_
              · simp only [Op.basic, List.isEmpty_iff] at hb
                rw [hb]
                rfl
              · intro vp hvp
                simp at hvp
/-- `settledFollowL` is `List.map` of `settledFollow`. -/
theorem settledFollowL_eq_map (st : State) :
    ∀ ps : List PlainTerm, settledFollowL st ps = ps.map (settledFollow st)
  | [] => rfl
  | p :: rest => by
    simp only [settledFollowL, List.map_cons, settledFollowL_eq_map st rest]

/-- An element of a list is no larger than the list's total size. -/
theorem sizeT_le_of_mem : ∀ {ps : List PlainTerm} {p : PlainTerm},
    p ∈ ps → sizeT p ≤ sizeTL ps
  | q :: rest, p, h => by
    simp only [List.mem_cons] at h
    rcases h with rfl | h
    · simp only [sizeTL]
      omega
    · have := sizeT_le_of_mem h
      simp only [sizeTL]
      omega

/-- If every zipped parameter resolves to its one-step follow without
changing the state, the parameter loop maps `settledFollow` over the
parameters and keeps the state. -/
theorem resolveParamsWith_id_run
    {rec1 : State → Bool → PlainTerm → Except Err (PlainTerm × State)} {st : State} :
    ∀ {l : List (Variance × PlainTerm)} {pl : Bool},
      (∀ v p, (v, p) ∈ l → rec1 st (pl.xor (v = .contravariant)) p =
        .ok (settledFollow st p, st)) →
      resolveParamsWith rec1 st pl l =
        .ok ((l.map Prod.snd).map (settledFollow st), st)
  | [], pl, _ => rfl
  | (v, p) :: rest, pl, hall => by
    have h1 := hall v p (List.mem_cons_self _ _)
    have h2 := resolveParamsWith_id_run
      fun v' p' hvp => hall v' p' (List.mem_cons_of_mem _ hvp)
    simp only [resolveParamsWith, h1, h2, List.map_cons]

/-- Resolving a term that is already settled changes nothing: it returns
the one-step followed term and leaves the state exactly as it was. -/
theorem settled_resolve {force rs : Bool} {st : State} :
    ∀ {pl : Bool} {r : PlainTerm}, Settled st force rs pl r →
    ∀ {fuel : Nat}, sizeT r + 1 ≤ fuel →
    resolvePlain force rs fuel st pl r = .ok (settledFollow st r, st) := by
  intro pl r h
  induction h with
  | var_root pl v hroot hbound =>
    intro fuel hfuel
    cases fuel with
    | zero => exact absurd hfuel (by omega)
    | succ f =>
      simp only [resolvePlain, follow, hroot, settledFollow]
      cases rs with
      | false => rfl
      | true =>
        obtain ⟨c1, c2, c3⟩ := hbound rfl
        have hstep : resolveVarStep force st pl v = .ok st := by
          simp only [resolveVarStep]
          cases pl with
          | true =>
            rw [if_pos rfl, c1 rfl]
            cases force with
            | false => rfl
            | true =>
              rw [(c3 rfl).2]
              rfl
          | false =>
            rw [if_neg Bool.false_ne_true, c2 rfl]
            cases force with
            | false => rfl
            | true =>
              rw [(c3 rfl).1]
              rfl
        simp only [Bool.not_true, Bool.false_eq_true, if_false, hstep, follow, hroot]
  | var_basic pl v o hu hb =>
    intro fuel hfuel
    simp only [sizeT] at hfuel
    cases fuel with
    | zero => exact absurd hfuel (by omega)
    | succ f =>
      cases f with
      | zero => exact absurd hfuel (by omega)
      | succ g =>
        have hv : o.variance = [] := by
          simpa [Op.basic, List.isEmpty_iff] using hb
        simp only [resolvePlain, follow, hu, settledFollow]
        rw [hv]
        simp only [List.zip_nil_left, resolveParamsWith, mkOpT, List.length_nil]
        rw [hv]
        rfl
  | op pl o ps hlen hps ih =>
    intro fuel hfuel
    cases fuel with
    | zero => exact absurd hfuel (by omega)
    | succ f =>
      simp only [sizeT] at hfuel
      have hall : ∀ v' p', (v', p') ∈ o.variance.zip ps →
          resolvePlain force rs f st (pl.xor (v' = .contravariant)) p' =
            .ok (settledFollow st p', st) := by
        intro v' p' hvp
        have hp : p' ∈ ps := (List.of_mem_zip hvp).2
        have hsz : sizeT (v', p').2 ≤ sizeTL ps := sizeT_le_of_mem hp
        exact ih (v', p') hvp (by omega)
      have hloop := resolveParamsWith_id_run hall
      have hsnd : (o.variance.zip ps).map Prod.snd = ps :=
        List.map_snd_zip o.variance ps hlen.le
      rw [hsnd] at hloop
      simp only [resolvePlain, follow, hloop, mkOpT, List.length_map, settledFollow,
        settledFollowL_eq_map]
      rw [if_pos hlen]
/-- `pairAllWith` holds between a list and its image under a map whose
predicate relates every element to its image. -/
theorem pairAllWith_map {eq2 : PlainTerm → PlainTerm → Bool} {g : PlainTerm → PlainTerm} :
    ∀ {ps : List PlainTerm}, (∀ p ∈ ps, eq2 p (g p) = true) →
      pairAllWith eq2 ps (ps.map g) = true
  | [], _ => rfl
  | p :: rest, hall => by
    have h1 := hall p (List.mem_cons_self _ _)
    have h2 := pairAllWith_map fun q hq => hall q (List.mem_cons_of_mem _ hq)
    simp only [List.map_cons, pairAllWith, h1, h2, Bool.and_self]

/-- A member of the second zipped list appears in the zip when the first
list is at least as long. -/
theorem mem_zip_right {α β : Type} :
    ∀ {l₁ : List α} {l₂ : List β} {b : β},
      b ∈ l₂ → l₂.length ≤ l₁.length → ∃ a, (a, b) ∈ l₁.zip l₂
  | _ :: _, [], b, hb, _ => by cases hb
  | [], _ :: _, b, hb, hlen => by
    simp only [List.length_cons, List.length_nil] at hlen
    exact absurd hlen (by omega)
  | [], [], b, hb, _ => by cases hb
  | a :: l₁, b' :: l₂, b, hb, hlen => by
    simp only [List.mem_cons] at hb
    rcases hb with rfl | hb
    · exact ⟨a, List.mem_cons_self _ _⟩
    · simp only [List.length_cons, Nat.succ_le_succ_iff] at hlen
      obtain ⟨a', ha'⟩ := mem_zip_right hb hlen
      exact ⟨a', List.mem_cons_of_mem _ ha'⟩

/-- A settled term is equal up to following to its one-step follow. -/
theorem settled_followEq {force rs : Bool} {st : State} :
    ∀ {pl : Bool} {r : PlainTerm}, Settled st force rs pl r →
    ∀ {fuel : Nat}, sizeT r + 1 ≤ fuel →
    followEqB st fuel r (settledFollow st r) = true := by
  intro pl r h
  induction h with
  | var_root pl v hroot hbound =>
    intro fuel hfuel
    cases fuel with
    | zero => exact absurd hfuel (by omega)
    | succ f =>
      simp only [followEqB, follow, hroot, settledFollow, beq_self_eq_true]
  | var_basic pl v o hu hb =>
    intro fuel hfuel
    simp only [sizeT] at hfuel
    cases fuel with
    | zero => exact absurd hfuel (by omega)
    | succ f =>
      cases f with
      | zero => exact absurd hfuel (by omega)
      | succ g =>
        simp only [followEqB, follow, hu, settledFollow, opBEq_refl, pairAllWith,
          List.length_nil, Bool.and_self, beq_self_eq_true]
  | op pl o ps hlen hps ih =>
    intro fuel hfuel
    simp only [sizeT] at hfuel
    cases fuel with
    | zero => exact absurd hfuel (by omega)
    | succ f =>
      have hpair : pairAllWith (followEqB st f) ps (ps.map (settledFollow st)) = true := by
        apply pairAllWith_map
        intro p hp
        obtain ⟨v', hv'⟩ := mem_zip_right hp hlen.le
        have hsz : sizeT (v', p).2 ≤ sizeTL ps := sizeT_le_of_mem hp
        exact ih (v', p) hv' (by omega)
      simp only [followEqB, follow, settledFollow, settledFollowL_eq_map, opBEq_refl,
        List.length_map, beq_self_eq_true, hpair, Bool.and_self, Bool.true_and]
/-- C7: `resolve` is NOT idempotent up to structural identity: on
`Function(α, α)` with `α.lower = Int` and `prefer_lower`, the first pass
leaves the contravariant occurrence as the bare variable while fusing the
covariant one to `Int`; the second pass follows the now-unified variable,
so the two results differ structurally (`resolveTwiceEq` yields `false`). -/
theorem c7_counterexample :
    resolveTwiceEq false true 20 stC7 true (fnT (.varT 0) (.varT 0)) = some false := by
  rfl

/-- C7 (amended): `resolve` is idempotent up to following unified
variables: if a pass of `resolve` returns `r` in state `st'`, a second
pass on `r` leaves the state unchanged and returns the one-step follow of
`r`, which is equal to `r` up to following (`followEqB`). -/
theorem c7_resolve_idem {force rs : Bool} {fuel : Nat} {st : State} {pl : Bool}
    {t r : PlainTerm} {st' : State} {fuel₂ : Nat}
    (h : resolvePlain force rs fuel st pl t = .ok (r, st'))
    (hf : sizeT r + 1 ≤ fuel₂) :
    resolvePlain force rs fuel₂ st' pl r = .ok (settledFollow st' r, st') ∧
    followEqB st' fuel₂ r (settledFollow st' r) = true := by
  have hs := resolvePlain_settled force rs h
  exact ⟨settled_resolve hs hf, settled_followEq hs hf⟩

/-- A concrete run of the amended C7 theorem on the counterexample
scenario: the second pass keeps the state and the result follows to the
first pass's result. -/
theorem c7_witness :
    resolvePlain false true 20 stC7 true (fnT (.varT 0) (.varT 0)) =
      .ok (fnT (.varT 0) tInt, setUnified stC7 0 tInt) ∧
    resolvePlain false true (sizeT (fnT (.varT 0) tInt) + 1) (setUnified stC7 0 tInt) true
        (fnT (.varT 0) tInt) =
      .ok (settledFollow (setUnified stC7 0 tInt) (fnT (.varT 0) tInt),
        setUnified stC7 0 tInt) ∧
    followEqB (setUnified stC7 0 tInt) (sizeT (fnT (.varT 0) tInt) + 1) (fnT (.varT 0) tInt)
      (settledFollow (setUnified stC7 0 tInt) (fnT (.varT 0) tInt)) = true := by
  have h1 : resolvePlain false true 20 stC7 true (fnT (.varT 0) (.varT 0)) =
      .ok (fnT (.varT 0) tInt, setUnified stC7 0 tInt) := rfl
  have h2 := c7_resolve_idem h1 (le_refl _)
  exact ⟨h1, h2.1, h2.2⟩
